import Mathlib

/-!
# Threshold Paillier (pht-crypto): shallow embedding and verification

The Rust sources `src/paillier.rs`, `src/util.rs`, `src/rand.rs` and
`src/lib.rs` are embedded as follows:

* `rug::Integer` (arbitrary-precision signed integers) is `Int`; the `u32`
  server indices are `Nat`.
* `rug`'s `/` and `%` truncate toward zero, hence `Int.tdiv` / `Int.tmod`;
  `>>` is an arithmetic (floor) shift, hence `Int.fdiv`.
* a panic (`assert!`, `assert_eq!`, `assert_ne!`, `.unwrap()`) is
  `Option.none`; an `anyhow::Result` value is `Except RustError`.
* randomness is made explicit: `encrypt` takes the draw `r` of
  `random_in_mult_group(n)`, key generation takes the two safe primes the
  external generator produced, and `Polynomial::new` takes the list of
  `random_below` draws.
-/

namespace PHT

inductive RustError where
  | noInverse
deriving DecidableEq

deriving instance DecidableEq for Except

/-- `PrivateKeyShare` (src/paillier.rs): 1-indexed server id `i` and the
polynomial evaluation `si` at `i`. -/
structure PrivateKeyShare where
  i : Nat
  si : Int
deriving DecidableEq

/-- `PartialDecryption` (src/paillier.rs). -/
structure PartialDecryption where
  val : Int
  id : Nat
deriving DecidableEq

/-- `PublicKey` (src/paillier.rs). -/
structure PublicKey where
  w : Nat
  l : Nat
  n : Int
  g : Int
  n2 : Int
  delta : Int
  combine_shares_constant : Int
deriving DecidableEq

/-- `PrivateKey` (src/paillier.rs). -/
structure PrivateKey where
  w : Nat
  l : Nat
  d : Int
  n : Int
  n2 : Int
  nm : Int
deriving DecidableEq

/-- `rug::Integer::invert` (GMP `mpz_invert`): the unique inverse of `a`
modulo `m` lying in `[0, m)`, failing exactly when `gcd(a, m) ≠ 1`.  The
inverse is located by bounded search so that the definition evaluates by
kernel reduction; `invert_eq_some` below proves the search succeeds and
that the found value is the inverse. -/
def invert (a m : Int) : Option Int :=
  if Int.gcd a m = 1 then
    ((List.range m.toNat).find? fun v : Nat => (a * (v : Int)) % m == 1 % m).map
      (fun v : Nat => (v : Int))
  else none

/-- `rug::Integer::pow_mod` (GMP `mpz_powm`): for `e ≥ 0` the power reduced
into `[0, m)`; for `e < 0` the inverse of `b^|e|` modulo `m`, failing (the
callers `unwrap`) exactly when that inverse does not exist. -/
def pow_mod (b e m : Int) : Option Int :=
  if 0 ≤ e then some ((b ^ e.toNat) % m)
  else invert ((b ^ (-e).toNat) % m) m

/-- `crt2` (src/util.rs): two-modulus Chinese remaindering by Bezout;
`none` models the `assert_eq!(gcd, 1)` panic (the two `unwrap`ed inverses
cannot fail once the assert passed). -/
def crt2 (con1_a con1_m con2_a con2_m : Int) : Option Int :=
  if Int.gcd con1_m con2_m = 1 then do
    let i1 ← invert con2_m con1_m
    let i2 ← invert con1_m con2_m
    let res := i1 * (con2_m * con1_a) + i2 * con1_m * con2_a
    some (res.tmod (con1_m * con2_m))
  else none

/-- `generate_key_pair` (src/paillier.rs), parametrised by the two safe
primes `p`, `q` produced by `generate_safe_prime` (src/rand.rs), which
also returns `(p - 1) / 2` as `p >> 1`.  The retry loop guarantees
`p ≠ q` for the pair actually used; `bits` only affects the external
sampling.  `none` covers both the `crt2` assert and the
`Err("No inverse")` return. -/
def generate_key_pair (p q : Int) (decryption_servers threshold : Nat) :
    Option (PublicKey × PrivateKey) := do
  let n := p * q
  let n2 := n ^ 2
  let g := n + 1
  let m := (Int.fdiv p 2) * (Int.fdiv q 2)
  let nm := n * m
  let d ← crt2 1 n 0 m
  let delta : Int := (Nat.factorial decryption_servers : Int)
  let csc ← invert (4 * delta ^ 2) n
  some ({ w := threshold, l := decryption_servers, n := n, g := g, n2 := n2,
          delta := delta, combine_shares_constant := csc },
        { w := threshold, l := decryption_servers, d := d, n := n, n2 := n2,
          nm := nm })

/-- `Polynomial` (src/paillier.rs): the borrowed `sk` is retained only
through the modulus `nm` that `compute` reads from it. -/
structure Polynomial where
  nm : Int
  coefficients : List Int

/-- `Polynomial::new`: coefficient 0 is `sk.d`; the remaining `w - 1`
coefficients are the `random_below(nm)` draws, supplied here explicitly
(callers require `rand.length = w - 1` and entries in `[0, nm)`). -/
def Polynomial.new (sk : PrivateKey) (rand : List Int) : Polynomial :=
  { nm := sk.nm, coefficients := sk.d :: rand }

/-- The loop of `Polynomial::compute`:
`rop += (x+1)^i * coefficients[i]; rop %= nm` for `i = 1, 2, …`. -/
def computeLoop (nm : Int) (x : Nat) : Nat → Int → List Int → Int
  | _, rop, [] => rop
  | i, rop, c :: cs =>
    computeLoop nm x (i + 1) ((rop + ((x : Int) + 1) ^ i * c).tmod nm) cs

/-- `Polynomial::compute` combined with the `i + 1` shift done by
`PrivateKeyShare::new` (0-indexed callers, 1-indexed shares). -/
def Polynomial.compute (p : Polynomial) (x : Nat) : PrivateKeyShare :=
  { i := x + 1,
    si := computeLoop p.nm x 1 p.coefficients.headI p.coefficients.tail }

/-- `PrivateKey::share` (src/paillier.rs).  The `assert_eq!` checks only
the index count — not uniqueness, despite its own message. -/
def PrivateKey.share (sk : PrivateKey) (server_indices : List Nat)
    (rand : List Int) : Option (List PrivateKeyShare) :=
  if server_indices.length = sk.w then
    some (server_indices.map (Polynomial.new sk rand).compute)
  else none

/-- `PrivateKeyShare::share_decrypt` (src/paillier.rs):
`val = cipher ^ (si * delta * 2) mod n2`. -/
def PrivateKeyShare.share_decrypt (sh : PrivateKeyShare) (pk : PublicKey)
    (cipher : Int) : Option PartialDecryption :=
  (pow_mod cipher (sh.si * pk.delta * 2) pk.n2).map fun v =>
    { val := v, id := sh.i }

/-- `PublicKey::encrypt` (src/paillier.rs), with the
`random_in_mult_group(n)` draw `r` explicit (so `0 ≤ r < n` and
`gcd(r, n) = 1` hold for genuine draws):
`c = (g^m mod n2) * (r^n mod n2) mod n2`. -/
def PublicKey.encrypt (pk : PublicKey) (m r : Int) : Option Int := do
  let rop ← pow_mod pk.g m pk.n2
  let rn ← pow_mod r pk.n pk.n2
  some ((rop * rn).tmod pk.n2)

/-- `PublicKey::add_encrypted` (src/paillier.rs): `c1 ← c1 * c2 mod n2`
(the mutation of the left operand is returned). -/
def PublicKey.add_encrypted (pk : PublicKey) (cipher1 cipher2 : Int) : Int :=
  (cipher1 * cipher2).tmod pk.n2

/-- Inner loop of `share_combine` for the share at position `i` with id
`sid`: starting from `lambda = delta`, for every other position `j` first
`assert_ne!` the ids (`none` on duplicates), then
`lambda *= -(id_j); lambda /= id_i - id_j` with truncating division. -/
def lambdaLoop (sid : Nat) (i : Nat) : Nat → Int → List PartialDecryption → Option Int
  | _, lam, [] => some lam
  | j, lam, sj :: rest =>
    if i = j then lambdaLoop sid i (j + 1) lam rest
    else if sid = sj.id then none
    else lambdaLoop sid i (j + 1)
      ((lam * (-(sj.id : Int))).tdiv ((sid : Int) - (sj.id : Int))) rest

/-- One element of the `share_combine` map: the scaled Lagrange
coefficient, then `si.val.pow_mod(2 * lambda, n2)` whose `unwrap` panic is
`none`. -/
def combineTerm (pk : PublicKey) (shares : List PartialDecryption) (i : Nat)
    (si : PartialDecryption) : Option Int := do
  let lam ← lambdaLoop si.id i 0 pk.delta shares
  pow_mod si.val (lam * 2) pk.n2

/-- The enumerated map of `share_combine` (`par_iter().enumerate().map`). -/
def combineTerms (pk : PublicKey) (shares : List PartialDecryption) :
    Nat → List PartialDecryption → Option (List Int)
  | _, [] => some []
  | i, si :: rest => do
    let c ← combineTerm pk shares i si
    let cs ← combineTerms pk shares (i + 1) rest
    some (c :: cs)

/-- `PublicKey::share_combine` (src/paillier.rs).  The rayon reduce with
identity `1` and associative combiner `(a, b) ↦ a * b % n2` is modelled by
its sequential fold.  The Rust function returns `Result<Plaintext>` but
its body has no error path: it panics (`none`) on duplicate ids or on a
failed inversion, and otherwise always returns
`Ok(((cprime - 1) / n) * combine_shares_constant % n)`. -/
def PublicKey.share_combine (pk : PublicKey) (shares : List PartialDecryption) :
    Option (Except RustError Int) := do
  let cs ← combineTerms pk shares 0 shares
  let cprime := cs.foldl (fun a b => (a * b).tmod pk.n2) 1
  let t := (cprime - 1).tdiv pk.n
  some (Except.ok ((t * pk.combine_shares_constant).tmod pk.n))

/-- `serde_integer::serialize` byte content (src/util.rs):
`to_digits::<u8>(Order::LsfBe)` is the base-256 little-endian digit list
of the absolute value (rug drops the sign when exporting digits). -/
def toBytes (x : Nat) : List Nat :=
  if h : x = 0 then []
  else (x % 256) :: toBytes (x / 256)
decreasing_by exact Nat.div_lt_self (Nat.pos_of_ne_zero h) (by omega)

def serde_integer.serialize (x : Int) : List Nat :=
  toBytes x.natAbs

/-- `serde_integer::deserialize` (src/util.rs):
`Integer::from_digits(bytes, Order::LsfBe)`. -/
def serde_integer.deserialize (bs : List Nat) : Int :=
  (bs.foldr (fun b acc => b + 256 * acc) 0 : Nat)

/-! ### Arithmetic toolbox: `invert` and `pow_mod` -/

theorem gcd_emod_left (a m : Int) : Int.gcd (a % m) m = Int.gcd a m := by
  apply Nat.dvd_antisymm
  · rw [← Int.natCast_dvd_natCast]
    apply Int.dvd_gcd
    · have ha : a = a % m + m * (a / m) := by
        rw [Int.emod_def]; ring
      have h1 : ((Int.gcd (a % m) m : Int)) ∣ a % m + m * (a / m) :=
        dvd_add Int.gcd_dvd_left (Dvd.dvd.mul_right Int.gcd_dvd_right _)
      rwa [← ha] at h1
    · exact Int.gcd_dvd_right
  · rw [← Int.natCast_dvd_natCast]
    apply Int.dvd_gcd
    · rw [Int.emod_def]
      exact dvd_sub Int.gcd_dvd_left (Dvd.dvd.mul_right Int.gcd_dvd_right _)
    · exact Int.gcd_dvd_right

theorem invert_spec {a m v : Int} (h : invert a m = some v) :
    Int.gcd a m = 1 ∧ 0 ≤ v ∧ v < m ∧ (a * v) % m = 1 % m := by
  unfold invert at h
  split at h
  case isFalse => exact absurd h (by simp)
  case isTrue hg =>
    rw [Option.map_eq_some'] at h
    obtain ⟨vn, hfind, hv⟩ := h
    have hmem := List.mem_of_find?_eq_some hfind
    have hpred := List.find?_some hfind
    rw [List.mem_range] at hmem
    rw [beq_iff_eq] at hpred
    subst hv
    exact ⟨hg, by omega, by omega, hpred⟩

theorem invert_eq_some {a m : Int} (hg : Int.gcd a m = 1) (hm : 1 ≤ m) :
    ∃ v, invert a m = some v ∧ 0 ≤ v ∧ v < m ∧ (a * v) % m = 1 % m := by
  -- produce one witness value in `[0, m)` satisfying the search predicate
  have hkey : ∃ vn : Nat, vn < m.toNat ∧ (a * (vn : Int)) % m = 1 % m := by
    rcases eq_or_lt_of_le hm with h1 | h1
    · exact ⟨0, by omega, by rw [← h1]; simp⟩
    · -- 1 < m; work through `Nat.exists_mul_emod_eq_gcd`
      set M := m.toNat with hM
      have hmM : (M : Int) = m := by omega
      set aN := (a % m).toNat with haN
      have haNa : ((aN : Int)) = a % m := by
        have := Int.emod_nonneg a (by omega : m ≠ 0)
        omega
      have hgN : Nat.gcd aN M = 1 := by
        have h2 : Int.gcd (a % m) m = 1 := by rw [gcd_emod_left]; exact hg
        have h3 : Int.gcd ((aN : Int)) ((M : Int)) = 1 := by rw [haNa, hmM]; exact h2
        rwa [Int.gcd_natCast_natCast] at h3
      have hlt : Nat.gcd aN M < M := by rw [hgN]; omega
      obtain ⟨k, hk⟩ := Nat.exists_mul_emod_eq_gcd hlt
      refine ⟨k % M, Nat.mod_lt _ (by omega), ?_⟩
      have h2 : ((aN * k % M : Nat) : Int) = 1 := by rw [hk, hgN]; rfl
      have e1 : (1 : Int) % m = 1 := Int.emod_eq_of_lt (by omega) (by omega)
      have e2 : ((k % M : Nat) : Int) % m = (k : Int) % m := by
        push_cast
        rw [hmM, Int.emod_emod_of_dvd _ dvd_rfl]
      have e3 : a % m = ((aN : Int)) % m := by
        rw [haNa, Int.emod_emod_of_dvd _ dvd_rfl]
      have e4 : (a * ((k % M : Nat) : Int)) % m = (((aN : Int)) * (k : Int)) % m := by
        rw [Int.mul_emod, e2, e3, ← Int.mul_emod]
      rw [e4, e1]
      have e5 : ((aN : Int)) * (k : Int) = ((aN * k : Nat) : Int) := by push_cast; ring
      rw [e5, ← hmM, ← Int.natCast_mod, h2]
  obtain ⟨vn, hvn, hpr⟩ := hkey
  rcases hf : (List.range m.toNat).find? fun v : Nat => (a * (v : Int)) % m == 1 % m
    with _ | w
  · rw [List.find?_eq_none] at hf
    exact absurd (by rw [beq_iff_eq]; exact hpr) (hf vn (List.mem_range.2 hvn))
  · refine ⟨(w : Int), ?_, ?_⟩
    · unfold invert
      rw [if_pos hg, hf, Option.map_some']
    · have hmem := List.mem_of_find?_eq_some hf
      have hpred := List.find?_some hf
      rw [List.mem_range] at hmem
      rw [beq_iff_eq] at hpred
      exact ⟨by omega, by omega, hpred⟩

/-- An inverse modulo `m` is unique in `[0, m)`. -/
theorem inverse_unique {a m v v' : Int} (hv : 0 ≤ v) (hv2 : v < m)
    (hv' : 0 ≤ v') (hv'2 : v' < m) (h1 : (a * v) % m = 1 % m)
    (h2 : (a * v') % m = 1 % m) : v = v' := by
  have c1 : (v * (a * v')) % m = v % m := by
    rw [Int.mul_emod v (a * v'), h2, ← Int.mul_emod v 1, mul_one]
  have c2 : (v' * (a * v)) % m = v' % m := by
    rw [Int.mul_emod v' (a * v), h1, ← Int.mul_emod v' 1, mul_one]
  have e : v * (a * v') = v' * (a * v) := by ring
  rw [Int.emod_eq_of_lt hv hv2] at c1
  rw [Int.emod_eq_of_lt hv' hv'2] at c2
  rw [e, c2] at c1
  exact c1.symm

/-! ### The `crt2` contract -/

theorem crt2_eq_some_gcd {a1 m1 a2 m2 x : Int}
    (h : crt2 a1 m1 a2 m2 = some x) : Int.gcd m1 m2 = 1 := by
  unfold crt2 at h
  split at h
  case isTrue hg => exact hg
  case isFalse => exact absurd h (by simp)

theorem crt2_spec {a1 m1 a2 m2 : Int} (ha1 : 0 ≤ a1) (ha1m : a1 < m1)
    (ha2 : 0 ≤ a2) (ha2m : a2 < m2) (hg : Int.gcd m1 m2 = 1) :
    ∃ x, crt2 a1 m1 a2 m2 = some x ∧ 0 ≤ x ∧ x < m1 * m2 ∧
      x % m1 = a1 ∧ x % m2 = a2 := by
  have hm1 : 1 ≤ m1 := by omega
  have hm2 : 1 ≤ m2 := by omega
  obtain ⟨i1, hi1, hi1l, hi1u, hi1inv⟩ :=
    invert_eq_some (a := m2) (m := m1) (by rw [Int.gcd_comm]; exact hg) hm1
  obtain ⟨i2, hi2, hi2l, hi2u, hi2inv⟩ :=
    invert_eq_some (a := m1) (m := m2) hg hm2
  set res := i1 * (m2 * a1) + i2 * m1 * a2 with hres
  have hresnn : 0 ≤ res := by positivity
  have hM : (0 : Int) < m1 * m2 := by positivity
  refine ⟨res.tmod (m1 * m2), ?_, ?_, ?_, ?_, ?_⟩
  · unfold crt2
    rw [if_pos hg, hi1, hi2]
    rfl
  · rw [Int.tmod_eq_emod hresnn (by omega)]
    exact Int.emod_nonneg res (by omega)
  · rw [Int.tmod_eq_emod hresnn (by omega)]
    exact Int.emod_lt_of_pos res hM
  · rw [Int.tmod_eq_emod hresnn (by omega),
      Int.emod_emod_of_dvd _ (dvd_mul_right m1 m2)]
    have e0 : res % m1 = ((m2 * i1) * a1) % m1 := by
      rw [show res = (m2 * i1) * a1 + m1 * (i2 * a2) by rw [hres]; ring]
      exact Int.add_mul_emod_self_left _ _ _
    rw [e0, Int.mul_emod, hi1inv, ← Int.mul_emod, one_mul]
    exact Int.emod_eq_of_lt ha1 ha1m
  · rw [Int.tmod_eq_emod hresnn (by omega),
      Int.emod_emod_of_dvd _ (dvd_mul_left m2 m1)]
    have e0 : res % m2 = ((m1 * i2) * a2) % m2 := by
      rw [show res = (m1 * i2) * a2 + m2 * (i1 * a1) by rw [hres]; ring]
      exact Int.add_mul_emod_self_left _ _ _
    rw [e0, Int.mul_emod, hi2inv, ← Int.mul_emod, one_mul]
    exact Int.emod_eq_of_lt ha2 ha2m

theorem crt2_solution_unique {m1 m2 x y : Int} (hg : Int.gcd m1 m2 = 1)
    (hx : 0 ≤ x) (hxu : x < m1 * m2) (hy : 0 ≤ y) (hyu : y < m1 * m2)
    (h1 : y % m1 = x % m1) (h2 : y % m2 = x % m2) : y = x := by
  have d1 : m1 ∣ y - x := Int.ModEq.dvd (Int.ModEq.symm h1)
  have d2 : m2 ∣ y - x := Int.ModEq.dvd (Int.ModEq.symm h2)
  have dm : m1 * m2 ∣ y - x :=
    (Int.isCoprime_iff_gcd_eq_one.mpr hg).mul_dvd d1 d2
  have := Int.eq_zero_of_dvd_of_natAbs_lt_natAbs dm (by omega)
  omega

/-- C6.  `crt2(a₁, m₁, a₂, m₂)` on canonical residues returns the unique
`x` with `0 ≤ x < m₁·m₂`, `x ≡ a₁ (mod m₁)`, `x ≡ a₂ (mod m₂)` whenever
`gcd(m₁, m₂) = 1`, and the coprimality assumption is enforced by the
assertion (`none` on violation). -/
theorem crt2_contract (a1 m1 a2 m2 : Int) (ha1 : 0 ≤ a1) (ha1m : a1 < m1)
    (ha2 : 0 ≤ a2) (ha2m : a2 < m2) :
    (Int.gcd m1 m2 = 1 →
      ∃ x, crt2 a1 m1 a2 m2 = some x ∧ 0 ≤ x ∧ x < m1 * m2 ∧
        x % m1 = a1 ∧ x % m2 = a2 ∧
        ∀ y, 0 ≤ y → y < m1 * m2 → y % m1 = a1 → y % m2 = a2 → y = x) ∧
    (Int.gcd m1 m2 ≠ 1 → crt2 a1 m1 a2 m2 = none) := by
  constructor
  · intro hg
    obtain ⟨x, hx, h0, h1, h2, h3⟩ := crt2_spec ha1 ha1m ha2 ha2m hg
    refine ⟨x, hx, h0, h1, h2, h3, ?_⟩
    intro y hy hyu hy1 hy2
    exact crt2_solution_unique hg h0 h1 hy hyu (by rw [hy1, h2])
      (by rw [hy2, h3])
  · intro hg
    unfold crt2
    rw [if_neg hg]

theorem crt2_contract_witness :
    ((0 : Int) ≤ 2 ∧ (2 : Int) < 3 ∧ (0 : Int) ≤ 1 ∧ (1 : Int) < 5) ∧
    ((Int.gcd 3 5 = 1 →
      ∃ x, crt2 2 3 1 5 = some x ∧ 0 ≤ x ∧ x < 3 * 5 ∧
        x % 3 = 2 ∧ x % 5 = 1 ∧
        ∀ y, 0 ≤ y → y < 3 * 5 → y % 3 = 2 → y % 5 = 1 → y = x) ∧
    (Int.gcd 3 5 ≠ 1 → crt2 2 3 1 5 = none)) :=
  ⟨⟨by decide, by decide, by decide, by decide⟩,
    crt2_contract 2 3 1 5 (by decide) (by decide) (by decide) (by decide)⟩

/-! ### Key-generation invariants -/

/-- Decompose a successful `generate_key_pair` run into its parts. -/
theorem generate_key_pair_parts {p q : Int} {l w : Nat} {pk : PublicKey}
    {sk : PrivateKey} (h : generate_key_pair p q l w = some (pk, sk)) :
    ∃ d csc,
      crt2 1 (p * q) 0 (Int.fdiv p 2 * Int.fdiv q 2) = some d ∧
      invert (4 * ((Nat.factorial l : Int)) ^ 2) (p * q) = some csc ∧
      pk = { w := w, l := l, n := p * q, g := p * q + 1, n2 := (p * q) ^ 2,
             delta := (Nat.factorial l : Int), combine_shares_constant := csc } ∧
      sk = { w := w, l := l, d := d, n := p * q, n2 := (p * q) ^ 2,
             nm := p * q * (Int.fdiv p 2 * Int.fdiv q 2) } := by
  unfold generate_key_pair at h
  dsimp only at h
  rcases hc : crt2 1 (p * q) 0 (Int.fdiv p 2 * Int.fdiv q 2) with _ | d <;>
    rw [hc] at h
  · exact absurd h (by simp)
  rcases hi : invert (4 * ((Nat.factorial l : Int)) ^ 2) (p * q) with _ | csc <;>
    rw [hi] at h
  · simp only [Option.bind_eq_bind, Option.some_bind] at h
    exact absurd h (by simp)
  simp only [Option.bind_eq_bind, Option.some_bind, Option.some.injEq,
    Prod.mk.injEq] at h
  exact ⟨d, csc, rfl, rfl, h.1.symm, h.2.symm⟩

theorem fdiv_two_of_odd (pp : Int) : Int.fdiv (2 * pp + 1) 2 = pp := by
  rw [Int.fdiv_eq_ediv _ (by norm_num)]
  omega

/-- C5.  Invariants of every key pair produced by `generate_key_pair` on
safe primes `p = 2p′+1`, `q = 2q′+1`: `n` odd, `g = n + 1`, `n2 = n²`,
`delta = l!`, `(4·delta²)·combine_shares_constant ≡ 1 (mod n)`, and
`d ≡ 1 (mod n)`, `d ≡ 0 (mod m)` for `m = p′·q′`. -/
theorem generate_key_pair_invariants (p q pp qq : Int) (l w : Nat)
    (pk : PublicKey) (sk : PrivateKey)
    (hp : p = 2 * pp + 1) (hq : q = 2 * qq + 1) (hpp : 1 ≤ pp) (hqq : 1 ≤ qq)
    (h : generate_key_pair p q l w = some (pk, sk)) :
    pk.n % 2 = 1 ∧ pk.g = pk.n + 1 ∧ pk.n2 = pk.n ^ 2 ∧
    pk.delta = (Nat.factorial l : Int) ∧
    (4 * pk.delta ^ 2 * pk.combine_shares_constant) % pk.n = 1 ∧
    sk.d % pk.n = 1 ∧ sk.d % (pp * qq) = 0 := by
  obtain ⟨d, csc, hc, hi, hpk, hsk⟩ := generate_key_pair_parts h
  have hn9 : 9 ≤ p * q := by nlinarith
  have hfp : Int.fdiv p 2 = pp := by rw [hp]; exact fdiv_two_of_odd pp
  have hfq : Int.fdiv q 2 = qq := by rw [hq]; exact fdiv_two_of_odd qq
  have hm1 : 1 ≤ pp * qq := by nlinarith
  have hgcd : Int.gcd (p * q) (Int.fdiv p 2 * Int.fdiv q 2) = 1 :=
    crt2_eq_some_gcd hc
  rw [hfp, hfq] at hc hgcd
  obtain ⟨x, hx, hx0, hxu, hx1, hx2⟩ :=
    @crt2_spec 1 (p * q) 0 (pp * qq)
      (by omega) (by omega) le_rfl (by omega) hgcd
  rw [hc] at hx
  have hdx : d = x := by injection hx
  obtain ⟨-, -, -, hinv⟩ := invert_spec hi
  rw [Int.emod_eq_of_lt (by omega : (0:Int) ≤ 1)
    (by omega : (1:Int) < p * q)] at hinv
  subst hpk hsk hdx
  refine ⟨?_, rfl, rfl, rfl, hinv, hx1, hx2⟩
  show p * q % 2 = 1
  have : p * q = 4 * (pp * qq) + 2 * pp + 2 * qq + 1 := by rw [hp, hq]; ring
  omega

/-- The key pair `generate_key_pair 5 7 1 1` (safe primes `5 = 2·2+1`,
`7 = 2·3+1`), used as a concrete witness input. -/
def pkOne : PublicKey :=
  { w := 1, l := 1, n := 35, g := 36, n2 := 1225, delta := 1,
    combine_shares_constant := 9 }

def skOne : PrivateKey :=
  { w := 1, l := 1, d := 36, n := 35, n2 := 1225, nm := 210 }

/-- The key pair `generate_key_pair 5 7 3 3`. -/
def pkThree : PublicKey :=
  { w := 3, l := 3, n := 35, g := 36, n2 := 1225, delta := 6,
    combine_shares_constant := 9 }

def skThree : PrivateKey :=
  { w := 3, l := 3, d := 36, n := 35, n2 := 1225, nm := 210 }

/-- The key pair `generate_key_pair 5 7 2 2`. -/
def pkTwo : PublicKey :=
  { w := 2, l := 2, n := 35, g := 36, n2 := 1225, delta := 2,
    combine_shares_constant := 11 }

def skTwo : PrivateKey :=
  { w := 2, l := 2, d := 36, n := 35, n2 := 1225, nm := 210 }

theorem generate_key_pair_invariants_witness :
    ((5 : Int) = 2 * 2 + 1 ∧ (7 : Int) = 2 * 3 + 1 ∧ (1 : Int) ≤ 2 ∧
      (1 : Int) ≤ 3 ∧ generate_key_pair 5 7 1 1 = some (pkOne, skOne)) ∧
    (pkOne.n % 2 = 1 ∧ pkOne.g = pkOne.n + 1 ∧ pkOne.n2 = pkOne.n ^ 2 ∧
      pkOne.delta = (Nat.factorial 1 : Int) ∧
      (4 * pkOne.delta ^ 2 * pkOne.combine_shares_constant) % pkOne.n = 1 ∧
      skOne.d % pkOne.n = 1 ∧ skOne.d % (2 * 3) = 0) :=
  ⟨⟨by decide, by decide, by decide, by decide, by decide⟩,
    generate_key_pair_invariants 5 7 2 3 1 1 pkOne skOne (by decide)
      (by decide) (by decide) (by decide) (by decide)⟩

/-! ### `share_combine` on the empty slice -/

/-! ### Serialization round-trip -/

theorem toBytes_foldr (n : Nat) :
    (toBytes n).foldr (fun b acc => b + 256 * acc) 0 = n := by
  induction n using Nat.strong_induction_on with
  | _ n ih =>
    rw [toBytes]
    split
    case isTrue h => simp [h]
    case isFalse h =>
      rw [List.foldr_cons, ih (n / 256) (Nat.div_lt_self (by omega) (by omega))]
      omega

/-- C9 (counterexample).  The round-trip fails on negative carried values:
rug's `to_digits` exports the absolute value, so `Plaintext(-1)` (freely
constructible through `From<i32>` etc.) comes back as `1`. -/
theorem serde_roundtrip_counterexample :
    serde_integer.deserialize (serde_integer.serialize (-1)) ≠ -1 ∧
    serde_integer.deserialize (serde_integer.serialize (-1)) = 1 := by
  constructor <;>
  · unfold serde_integer.serialize serde_integer.deserialize
    rw [toBytes_foldr]
    decide

/-- C9 (amended).  For every nonnegative big-integer value carried by an
exported type, deserializing the serialized little-endian byte form
restores the value: `deserialize(serialize(x)) = x` for `0 ≤ x`. -/
theorem serde_roundtrip (x : Int) (hx : 0 ≤ x) :
    serde_integer.deserialize (serde_integer.serialize x) = x := by
  unfold serde_integer.serialize serde_integer.deserialize
  rw [toBytes_foldr]
  omega

theorem serde_roundtrip_witness :
    (0 : Int) ≤ 258 ∧
      serde_integer.deserialize (serde_integer.serialize 258) = 258 :=
  ⟨by decide, serde_roundtrip 258 (by decide)⟩

/-! ### `share` does not reject duplicate indices -/

/-- C7 (code evaluated at the failing input).  `PrivateKey::share` checks
only the index count: the duplicate list `[0, 0]` with `w = 2` passes the
assert and yields two identical shares instead of the
`PreconditionViolated` the spec (and the assert's own message) promise. -/
theorem share_accepts_duplicate_indices :
    generate_key_pair 5 7 2 2 = some (pkTwo, skTwo) ∧
    skTwo.share [0, 0] [7] =
      some [{ i := 1, si := 43 }, { i := 1, si := 43 }] :=
  ⟨by decide, by decide⟩

/-! ### `share_combine` panics on a failed inversion -/

theorem combineTerms_eq_none {pk : PublicKey} {shares : List PartialDecryption} :
    ∀ {k : Nat} {rest : List PartialDecryption} {i : Nat} {si : PartialDecryption},
      rest.get? i = some si → combineTerm pk shares (k + i) si = none →
      combineTerms pk shares k rest = none := by
  intro k rest
  induction rest generalizing k with
  | nil => intro i si hget; simp at hget
  | cons x rest' ih =>
    intro i si hget hterm
    match i with
    | 0 =>
      simp only [List.get?] at hget
      injection hget with hx
      show (combineTerm pk shares k x).bind _ = none
      have hx2 : combineTerm pk shares k x = none := by
        rw [hx, ← Nat.add_zero k]
        exact hterm
      rw [hx2]
      rfl
    | i' + 1 =>
      simp only [List.get?] at hget
      show (combineTerm pk shares k x).bind _ = none
      rcases combineTerm pk shares k x with _ | c
      · rfl
      · show (combineTerms pk shares (k + 1) rest').bind _ = none
        rw [ih (k := k + 1) hget (by rw [show k + 1 + i' = k + (i' + 1) by omega]; exact hterm)]
        rfl

/-- C8 (counterexample).  At a genuine key pair (`generate_key_pair 5 7 2 2`)
and shares with ids `{1, 2}` where the id-2 exponent is `2·λ = -4` and the
share value `35` shares a factor with `n² = 1225`, `share_combine` panics
(`none`, the `unwrap` on the failed `pow_mod`) — it does not return the
claimed `Err(NoInverse)` result. -/
theorem share_combine_no_inverse_counterexample :
    pkTwo.share_combine [⟨4, 1⟩, ⟨35, 2⟩] ≠
      some (Except.error RustError.noInverse) ∧
    pkTwo.share_combine [⟨4, 1⟩, ⟨35, 2⟩] = none :=
  ⟨by decide, by decide⟩

/-- C8 (amended).  When the scaled Lagrange exponent of the share at
position `i` is negative and the share's value is not coprime to `n²`,
`share_combine` fails — by panicking on the `unwrap`ed inversion
(`none`), since its body has no error path that could return `NoInverse`
to the caller. -/
theorem share_combine_panics_on_no_inverse (pk : PublicKey)
    (shares : List PartialDecryption) (i : Nat) (si : PartialDecryption)
    (lam : Int) (hget : shares.get? i = some si)
    (hlam : lambdaLoop si.id i 0 pk.delta shares = some lam) (hneg : lam < 0)
    (hniv : Int.gcd (si.val ^ (-(lam * 2)).toNat % pk.n2) pk.n2 ≠ 1) :
    pk.share_combine shares = none := by
  have hterm : combineTerm pk shares i si = none := by
    unfold combineTerm
    rw [hlam]
    show pow_mod si.val (lam * 2) pk.n2 = none
    unfold pow_mod
    rw [if_neg (by omega)]
    unfold invert
    rw [if_neg hniv]
  show (combineTerms pk shares 0 shares).bind _ = none
  rw [combineTerms_eq_none (k := 0) hget (by rw [Nat.zero_add]; exact hterm)]
  rfl

theorem share_combine_panics_on_no_inverse_witness :
    (([⟨4, 1⟩, ⟨35, 2⟩] : List PartialDecryption).get? 1 =
        some (⟨35, 2⟩ : PartialDecryption) ∧
      lambdaLoop 2 1 0 pkTwo.delta [⟨4, 1⟩, ⟨35, 2⟩] = some (-2) ∧
      (-2 : Int) < 0 ∧
      Int.gcd ((35 : Int) ^ (-((-2) * 2) : Int).toNat % pkTwo.n2) pkTwo.n2 ≠ 1) ∧
    pkTwo.share_combine [⟨4, 1⟩, ⟨35, 2⟩] = none :=
  ⟨⟨by decide, by decide, by decide, by decide⟩,
    share_combine_panics_on_no_inverse pkTwo [⟨4, 1⟩, ⟨35, 2⟩] 1 ⟨35, 2⟩ (-2)
      (by decide) (by decide) (by decide) (by decide)⟩

/-- C10.  `share_combine` applied to the empty slice succeeds with
plaintext `0`: the parallel reduce starts from the identity `1`, so
`c′ = 1` and the recovered value is `0`. -/
theorem share_combine_empty (pk : PublicKey) :
    pk.share_combine [] = some (Except.ok 0) := by
  show (some [] >>= _) = _
  simp only [Option.bind_some, Option.some_bind, List.foldl_nil]
  norm_num [PublicKey.share_combine, combineTerms, Int.zero_tdiv]

/-! ### Exactness of the interleaved scaled-Lagrange fold

`share_combine` computes
`λᵢ = delta · ∏_{j≠i} (−id_j) / (id_i − id_j)` by interleaving the
multiplication with a truncating division.  When the ids are distinct
values of `{1..l}` and `delta = l!`, every intermediate division is exact,
because each prefix product of differences divides `l!`. -/

/-- The fold underlying `lambdaLoop`, over the other shares' ids. -/
def lamFold (sid : Nat) (lam : Int) (others : List Nat) : Int :=
  others.foldl (fun acc t => (acc * (-(t : Int))).tdiv ((sid : Int) - t)) lam

theorem prod_Icc_reflect_factorial (m : Nat) :
    ∏ x ∈ Finset.Icc 1 m, (m + 1 - x) = Nat.factorial m := by
  rw [← Nat.Ico_succ_right, Finset.prod_Ico_eq_prod_range]
  simp only [Nat.add_sub_cancel, Nat.succ_sub_one]
  have h2 : ∀ j ∈ Finset.range m, m + 1 - (1 + j) = m - 1 - j + 1 := by
    intro j hj
    rw [Finset.mem_range] at hj
    omega
  rw [Finset.prod_congr rfl h2, Finset.prod_range_reflect (fun j => j + 1) m,
    Finset.prod_range_add_one_eq_factorial]

theorem prod_Icc_shift_factorial (s l : Nat) :
    ∏ x ∈ Finset.Icc (s + 1) l, (x - s) = Nat.factorial (l - s) := by
  rcases le_or_lt (s + 1) l with h | h
  · rw [← Nat.Ico_succ_right, Finset.prod_Ico_eq_prod_range]
    have h1 : ∀ j ∈ Finset.range (l + 1 - (s + 1)), s + 1 + j - s = j + 1 := by
      intro j hj; omega
    rw [Finset.prod_congr rfl h1, Finset.prod_range_add_one_eq_factorial,
      show l + 1 - (s + 1) = l - s by omega]
  · rw [show Finset.Icc (s + 1) l = ∅ by
        apply Finset.Icc_eq_empty; omega,
      show l - s = 0 by omega]
    rfl

/-- The signed product `∏_{x ∈ {1..l} \ {sid}} (sid − x)` divides `l!`. -/
theorem prod_erase_sub_dvd_factorial (l sid : Nat) (h1 : 1 ≤ sid)
    (h2 : sid ≤ l) :
    (∏ x ∈ (Finset.Icc 1 l).erase sid, ((sid : Int) - x)) ∣
      ((Nat.factorial l : Int)) := by
  have hsplit : (Finset.Icc 1 l).erase sid =
      Finset.Icc 1 (sid - 1) ∪ Finset.Icc (sid + 1) l := by
    ext x
    simp only [Finset.mem_erase, Finset.mem_Icc, Finset.mem_union]
    omega
  have hdisj : Disjoint (Finset.Icc 1 (sid - 1)) (Finset.Icc (sid + 1) l) := by
    rw [Finset.disjoint_left]
    intro x hx hx2
    simp only [Finset.mem_Icc] at hx hx2
    omega
  rw [hsplit, Finset.prod_union hdisj]
  have hA : (∏ x ∈ Finset.Icc 1 (sid - 1), ((sid : Int) - x)) =
      ((Nat.factorial (sid - 1) : Nat) : Int) := by
    have hc : ∀ x ∈ Finset.Icc 1 (sid - 1), ((sid : Int) - x) =
        (((sid - 1) + 1 - x : Nat) : Int) := by
      intro x hx
      simp only [Finset.mem_Icc] at hx
      omega
    rw [Finset.prod_congr rfl hc, ← Nat.cast_prod,
      prod_Icc_reflect_factorial (sid - 1)]
  have hB : (∏ x ∈ Finset.Icc (sid + 1) l, ((sid : Int) - x)) =
      (-1) ^ (l - sid) * ((Nat.factorial (l - sid) : Nat) : Int) := by
    have hc : ∀ x ∈ Finset.Icc (sid + 1) l, ((sid : Int) - x) =
        -1 * (((x - sid : Nat) : Nat) : Int) := by
      intro x hx
      simp only [Finset.mem_Icc] at hx
      omega
    rw [Finset.prod_congr rfl hc, Finset.prod_mul_distrib, Finset.prod_const,
      ← Nat.cast_prod, prod_Icc_shift_factorial sid l, Nat.card_Icc]
    rw [show l + 1 - (sid + 1) = l - sid by omega]
  rw [hA, hB]
  have hdvd : Nat.factorial (sid - 1) * Nat.factorial (l - sid) ∣
      Nat.factorial l := by
    have e1 : Nat.factorial (sid - 1) * Nat.factorial (l - 1 - (sid - 1)) ∣
        Nat.factorial (l - 1) :=
      Nat.factorial_mul_factorial_dvd_factorial (by omega)
    rw [show l - 1 - (sid - 1) = l - sid by omega] at e1
    exact dvd_trans e1 (Nat.factorial_dvd_factorial (by omega))
  have hdvdZ : ((Nat.factorial (sid - 1) * Nat.factorial (l - sid) : Nat) : Int)
      ∣ ((Nat.factorial l : Nat) : Int) := Int.natCast_dvd_natCast.mpr hdvd
  rcases Nat.even_or_odd (l - sid) with he | ho
  · rw [he.neg_one_pow, one_mul]
    exact_mod_cast hdvd
  · rw [ho.neg_one_pow]
    rw [show (-1 : Int) * ((Nat.factorial (l - sid) : Nat) : Int) =
      -((Nat.factorial (l - sid) : Nat) : Int) by ring, mul_neg, neg_dvd]
    exact_mod_cast hdvd

/-- Prefix products of differences of distinct ids against `sid`, all in
`{1..l}`, divide `l!`. -/
theorem prod_sub_dvd_factorial (l sid : Nat) (L : List Nat) (hnd : L.Nodup)
    (hsid : sid ∉ L) (hmem : ∀ t ∈ L, 1 ≤ t ∧ t ≤ l) (h1 : 1 ≤ sid)
    (h2 : sid ≤ l) :
    ((L.map fun t : Nat => (sid : Int) - (t : Int)).prod) ∣
      ((Nat.factorial l : Int)) := by
  have hprod : (L.map fun t : Nat => (sid : Int) - (t : Int)).prod =
      ∏ x ∈ L.toFinset, ((sid : Int) - x) :=
    (List.prod_toFinset _ hnd).symm
  rw [hprod]
  have hsub : L.toFinset ⊆ (Finset.Icc 1 l).erase sid := by
    intro x hx
    rw [List.mem_toFinset] at hx
    rw [Finset.mem_erase, Finset.mem_Icc]
    exact ⟨by rintro rfl; exact hsid hx, (hmem x hx).1, (hmem x hx).2⟩
  exact dvd_trans
    (Finset.prod_dvd_prod_of_subset _ _ (fun x : Nat => (sid : Int) - (x : Int))
      hsub)
    (prod_erase_sub_dvd_factorial l sid h1 h2)

theorem prodD_ne_zero (sid : Nat) (L : List Nat) (h : sid ∉ L) :
    (L.map fun t : Nat => (sid : Int) - (t : Int)).prod ≠ 0 := by
  induction L with
  | nil => simp
  | cons t L' ih =>
    rw [List.map_cons, List.prod_cons]
    have ht : t ≠ sid := by
      intro he; exact h (by rw [he]; exact List.mem_cons_self _ _)
    exact mul_ne_zero (by omega) (ih (fun hm => h (List.mem_cons_of_mem _ hm)))

/-- Exactness invariant of the interleaved fold: once the processed prefix
`done` satisfies the exact product identity, so does the whole list. -/
theorem lamFold_exact (l sid : Nat) (h1 : 1 ≤ sid) (h2 : sid ≤ l) :
    ∀ (todo done : List Nat) (lam : Int),
      (done ++ todo).Nodup → sid ∉ done ++ todo →
      (∀ t ∈ done ++ todo, 1 ≤ t ∧ t ≤ l) →
      lam * ((done.map fun t : Nat => (sid : Int) - (t : Int)).prod) =
        (Nat.factorial l : Int) * ((done.map fun t : Nat => -(t : Int)).prod) →
      lamFold sid lam todo *
          (((done ++ todo).map fun t : Nat => (sid : Int) - (t : Int)).prod) =
        (Nat.factorial l : Int) *
          (((done ++ todo).map fun t : Nat => -(t : Int)).prod) := by
  intro todo
  induction todo with
  | nil =>
    intro done lam _ _ _ hinv
    simpa [lamFold] using hinv
  | cons t todo' ih =>
    intro done lam hnd hsid hmem hinv
    have hts : (t : Int) ≠ (sid : Int) := by
      have hne : t ≠ sid := by
        intro he
        subst he
        exact hsid (List.mem_append_right _ (List.mem_cons_self _ _))
      omega
    have hsiddone : sid ∉ done := fun hm => hsid (List.mem_append_left _ hm)
    have hDne : (done.map fun t : Nat => (sid : Int) - (t : Int)).prod ≠ 0 :=
      prodD_ne_zero sid done hsiddone
    have hndt : (done ++ [t]).Nodup := by
      have hsl : (done ++ [t]).Sublist (done ++ t :: todo') :=
        List.Sublist.append_left (by
          exact List.cons_sublist_cons.mpr (List.nil_sublist _)) done
      exact hsl.nodup hnd
    have hsidt : sid ∉ done ++ [t] := by
      intro hm
      rcases List.mem_append.mp hm with hm | hm
      · exact hsiddone hm
      · rcases List.mem_singleton.mp hm with rfl
        exact hts rfl
    have hmemt : ∀ x ∈ done ++ [t], 1 ≤ x ∧ x ≤ l := by
      intro x hx
      rcases List.mem_append.mp hx with hx | hx
      · exact hmem x (List.mem_append_left _ hx)
      · rcases List.mem_singleton.mp hx with rfl
        exact hmem x (List.mem_append_right _ (List.mem_cons_self _ _))
    obtain ⟨u, hu⟩ := prod_sub_dvd_factorial l sid (done ++ [t]) hndt hsidt
      hmemt h1 h2
    have hDt : ((done ++ [t]).map fun x : Nat => (sid : Int) - (x : Int)).prod =
        ((done.map fun x : Nat => (sid : Int) - (x : Int)).prod) *
          ((sid : Int) - t) := by
      rw [List.map_append, List.prod_append]
      simp
    have hNt : ((done ++ [t]).map fun x : Nat => -(x : Int)).prod =
        ((done.map fun x : Nat => -(x : Int)).prod) * (-(t : Int)) := by
      rw [List.map_append, List.prod_append]
      simp
    rw [hDt] at hu
    -- `hu : ↑l! = Ddone * (sid - t) * u`
    have key : lam * (-(t : Int)) =
        ((sid : Int) - t) *
          (u * ((done.map fun x : Nat => -(x : Int)).prod) * (-(t : Int))) := by
      have h3 : lam * (-(t : Int)) *
          ((done.map fun x : Nat => (sid : Int) - (x : Int)).prod) =
          (((sid : Int) - t) *
            (u * ((done.map fun x : Nat => -(x : Int)).prod) * (-(t : Int)))) *
          ((done.map fun x : Nat => (sid : Int) - (x : Int)).prod) := by
        calc lam * (-(t : Int)) *
            ((done.map fun x : Nat => (sid : Int) - (x : Int)).prod)
            = (lam * ((done.map fun x : Nat => (sid : Int) - (x : Int)).prod)) *
              (-(t : Int)) := by ring
          _ = ((Nat.factorial l : Int) *
              ((done.map fun x : Nat => -(x : Int)).prod)) * (-(t : Int)) := by
              rw [hinv]
          _ = _ := by rw [hu]; ring
      exact mul_right_cancel₀ hDne h3
    have hstep : (lam * (-(t : Int))).tdiv ((sid : Int) - t) =
        u * ((done.map fun x : Nat => -(x : Int)).prod) * (-(t : Int)) := by
      rw [key]
      exact Int.mul_tdiv_cancel_left _ (by omega)
    have hinv' : ((lam * (-(t : Int))).tdiv ((sid : Int) - t)) *
        (((done ++ [t]).map fun x : Nat => (sid : Int) - (x : Int)).prod) =
        (Nat.factorial l : Int) *
          (((done ++ [t]).map fun x : Nat => -(x : Int)).prod) := by
      rw [hstep, hDt, hNt, hu]
      ring
    have happ : (done ++ [t]) ++ todo' = done ++ t :: todo' := by
      rw [List.append_assoc, List.singleton_append]
    have := ih (done ++ [t]) ((lam * (-(t : Int))).tdiv ((sid : Int) - t))
      (by rw [happ]; exact hnd) (by rw [happ]; exact hsid)
      (by rw [happ]; exact hmem) hinv'
    rw [happ] at this
    exact this

theorem lambdaLoop_no_skip (sid i : Nat) :
    ∀ (rest : List PartialDecryption) (j : Nat) (lam : Int), i < j →
      (∀ s ∈ rest, s.id ≠ sid) →
      lambdaLoop sid i j lam rest =
        some (lamFold sid lam (rest.map PartialDecryption.id)) := by
  intro rest
  induction rest with
  | nil => intro j lam _ _; rfl
  | cons s rest' ih =>
    intro j lam hij hids
    show lambdaLoop sid i j lam (s :: rest') = _
    unfold lambdaLoop
    rw [if_neg (by omega),
      if_neg (fun he => hids s (List.mem_cons_self _ _) he.symm),
      ih (j + 1) _ (by omega) (fun x hx => hids x (List.mem_cons_of_mem _ hx))]
    rfl

theorem lambdaLoop_skip (sid i : Nat) :
    ∀ (rest : List PartialDecryption) (j : Nat) (lam : Int), j ≤ i →
      (∀ k s, rest.get? k = some s → j + k ≠ i → s.id ≠ sid) →
      lambdaLoop sid i j lam rest =
        some (lamFold sid lam
          ((rest.eraseIdx (i - j)).map PartialDecryption.id)) := by
  intro rest
  induction rest with
  | nil => intro j lam _ _; rw [List.eraseIdx_nil]; rfl
  | cons s rest' ih =>
    intro j lam hle hcond
    rcases eq_or_lt_of_le hle with he | hlt
    · -- the loop is at the skipped position `i = j`
      unfold lambdaLoop
      rw [if_pos he.symm,
        lambdaLoop_no_skip sid i rest' (j + 1) lam (by omega) ?hne]
      case hne =>
        intro x hx
        obtain ⟨k, hk⟩ := List.mem_iff_get?.mp hx
        exact hcond (k + 1) x hk (by omega)
      rw [show i - j = 0 by omega, List.eraseIdx_cons_zero]
    · -- `j < i`: the head is processed normally
      unfold lambdaLoop
      rw [if_neg (by omega),
        if_neg (fun he2 => (hcond 0 s rfl (by omega)) he2.symm),
        ih (j + 1) _ (by omega) (fun k x hk hne => hcond (k + 1) x hk (by omega)),
        show i - j = (i - (j + 1)) + 1 by omega, List.eraseIdx_cons_succ,
        List.map_cons]
      rfl

theorem eraseIdx_map {α β : Type} (f : α → β) :
    ∀ (L : List α) (i : Nat), (L.map f).eraseIdx i = (L.eraseIdx i).map f := by
  intro L
  induction L with
  | nil => intro i; rfl
  | cons x L' ih =>
    intro i
    match i with
    | 0 => rfl
    | k + 1 =>
      rw [List.map_cons, List.eraseIdx_cons_succ, List.eraseIdx_cons_succ,
        List.map_cons, ih k]

theorem nodup_get?_not_mem_eraseIdx {α : Type} :
    ∀ {L : List α} {i : Nat} {a : α}, L.Nodup → L.get? i = some a →
      a ∉ L.eraseIdx i := by
  intro L
  induction L with
  | nil => intro i a _ h; simp at h
  | cons x L' ih =>
    intro i a hnd hget
    match i with
    | 0 =>
      injection hget with hx
      subst hx
      rw [List.eraseIdx_cons_zero]
      exact (List.nodup_cons.mp hnd).1
    | k + 1 =>
      rw [List.eraseIdx_cons_succ]
      intro hmem
      rcases List.mem_cons.mp hmem with he | hmem'
      · subst he
        exact (List.nodup_cons.mp hnd).1
          (List.get?_mem (by exact hget))
      · exact ih (List.nodup_cons.mp hnd).2 hget hmem'

theorem nodup_ids_ne {shares : List PartialDecryption}
    (hnd : (shares.map PartialDecryption.id).Nodup) {i k : Nat}
    {si s : PartialDecryption} (hi : shares.get? i = some si)
    (hk : shares.get? k = some s) (hne : k ≠ i) : s.id ≠ si.id := by
  intro he
  have hi' : (shares.map PartialDecryption.id).get? i = some si.id := by
    rw [List.get?_map, hi]; rfl
  have hk' : (shares.map PartialDecryption.id).get? k = some si.id := by
    rw [List.get?_map, hk, ← he]; rfl
  -- a nodup list cannot hold the same value at two distinct positions
  rcases List.get?_eq_some.mp hi' with ⟨hli, hgi⟩
  rcases List.get?_eq_some.mp hk' with ⟨hlk, hgk⟩
  have hik : (⟨i, hli⟩ : Fin _) = ⟨k, hlk⟩ :=
    (List.Nodup.get_inj_iff hnd).mp (by rw [hgi, hgk])
  have := congrArg Fin.val hik
  simp only at this
  omega

/-- C4.  For distinct ids drawn from `{1..l}`, the scaled Lagrange
coefficient `delta · ∏_{j≠i} (−id_j) / (id_i − id_j)` with `delta = l!` is
an exact integer (the denominator is a nonzero exact divisor, sign
included), and the `share_combine` loop interleaving multiplication with
truncating division computes exactly this integer. -/
theorem lambda_loop_exact (l : Nat) (shares : List PartialDecryption)
    (i : Nat) (si : PartialDecryption) (hget : shares.get? i = some si)
    (hnd : (shares.map PartialDecryption.id).Nodup)
    (hmem : ∀ s ∈ shares, 1 ≤ s.id ∧ s.id ≤ l) :
    ∃ lam, lambdaLoop si.id i 0 ((Nat.factorial l : Int)) shares = some lam ∧
      lam * (((shares.eraseIdx i).map
          (fun s => (si.id : Int) - (s.id : Int))).prod) =
        (Nat.factorial l : Int) *
          (((shares.eraseIdx i).map (fun s => -((s.id : Int)))).prod) ∧
      (((shares.eraseIdx i).map
          (fun s => (si.id : Int) - (s.id : Int))).prod) ≠ 0 := by
  have hloop := lambdaLoop_skip si.id i shares 0 ((Nat.factorial l : Int))
    (Nat.zero_le i)
    (fun k s hk hkne => nodup_ids_ne hnd hget hk (by omega))
  rw [Nat.sub_zero] at hloop
  set others : List Nat := (shares.eraseIdx i).map PartialDecryption.id
    with hothers
  have hsubl : (shares.eraseIdx i).Sublist shares := List.eraseIdx_sublist _ _
  have hndo : others.Nodup := by
    rw [hothers, ← eraseIdx_map]
    exact (List.eraseIdx_sublist _ _).nodup hnd
  have hsido : si.id ∉ others := by
    rw [hothers, ← eraseIdx_map]
    exact nodup_get?_not_mem_eraseIdx hnd (by rw [List.get?_map, hget]; rfl)
  have hmemo : ∀ t ∈ others, 1 ≤ t ∧ t ≤ l := by
    intro t ht
    rw [hothers] at ht
    obtain ⟨s, hs, rfl⟩ := List.mem_map.mp ht
    exact hmem s (hsubl.mem hs)
  have hsi : 1 ≤ si.id ∧ si.id ≤ l :=
    hmem si (List.get?_mem hget)
  have hexact := lamFold_exact l si.id hsi.1 hsi.2 others []
    ((Nat.factorial l : Nat) : Int) (by simpa using hndo)
    (by simpa using hsido) (by simpa using hmemo) (by simp)
  simp only [List.nil_append] at hexact
  refine ⟨lamFold si.id ((Nat.factorial l : Nat) : Int) others, hloop, ?_, ?_⟩
  · have e1 : others.map (fun t : Nat => (si.id : Int) - (t : Int)) =
        (shares.eraseIdx i).map (fun s => (si.id : Int) - (s.id : Int)) := by
      rw [hothers, List.map_map]
      rfl
    have e2 : others.map (fun t : Nat => -(t : Int)) =
        (shares.eraseIdx i).map (fun s => -((s.id : Int))) := by
      rw [hothers, List.map_map]
      rfl
    rw [← e1, ← e2]
    exact hexact
  · have e1 : others.map (fun t : Nat => (si.id : Int) - (t : Int)) =
        (shares.eraseIdx i).map (fun s => (si.id : Int) - (s.id : Int)) := by
      rw [hothers, List.map_map]
      rfl
    rw [← e1]
    exact prodD_ne_zero si.id others hsido

theorem lambda_loop_exact_witness :
    ∃ lam,
      lambdaLoop 2 1 0 ((Nat.factorial 3 : Int))
        [⟨10, 1⟩, ⟨20, 2⟩, ⟨30, 3⟩] = some lam ∧
      lam * ((([⟨10, 1⟩, ⟨20, 2⟩, ⟨30, 3⟩] :
            List PartialDecryption).eraseIdx 1).map
          (fun s => ((2 : Nat) : Int) - (s.id : Int))).prod =
        (Nat.factorial 3 : Int) *
          ((([⟨10, 1⟩, ⟨20, 2⟩, ⟨30, 3⟩] :
              List PartialDecryption).eraseIdx 1).map
            (fun s => -((s.id : Int)))).prod ∧
      ((([⟨10, 1⟩, ⟨20, 2⟩, ⟨30, 3⟩] :
            List PartialDecryption).eraseIdx 1).map
          (fun s => ((2 : Nat) : Int) - (s.id : Int))).prod ≠ 0 :=
  lambda_loop_exact 3 [⟨10, 1⟩, ⟨20, 2⟩, ⟨30, 3⟩] 1 ⟨20, 2⟩ (by decide)
    (by decide) (by decide)

/-! ### `share_combine` as an order-free computation -/

theorem pow_mod_bounds {b e m v : Int} (hm : 0 < m)
    (h : pow_mod b e m = some v) : 0 ≤ v ∧ v < m := by
  unfold pow_mod at h
  split at h
  · injection h with h
    subst h
    exact ⟨Int.emod_nonneg _ (by omega), Int.emod_lt_of_pos _ hm⟩
  · obtain ⟨-, h1, h2, -⟩ := invert_spec h
    exact ⟨h1, h2⟩

/-- Elementwise `Option`-valued map (the shape of `combineTerms`). -/
def optionMap {α β : Type} (f : α → Option β) : List α → Option (List β)
  | [] => some []
  | x :: xs => do
    let y ← f x
    let ys ← optionMap f xs
    some (y :: ys)

theorem optionMap_eq_none_iff {α β : Type} {f : α → Option β} :
    ∀ {L : List α}, optionMap f L = none ↔ ∃ s ∈ L, f s = none := by
  intro L
  induction L with
  | nil => simp [optionMap]
  | cons x xs ih =>
    show ((f x).bind fun y => (optionMap f xs).bind fun ys => some (y :: ys))
        = none ↔ _
    rcases hfx : f x with _ | y
    · simp only [Option.none_bind]
      constructor
      · intro _; exact ⟨x, List.mem_cons_self _ _, hfx⟩
      · intro _; trivial
    · simp only [Option.some_bind]
      rcases hxs : optionMap f xs with _ | ys
      · simp only [Option.none_bind]
        obtain ⟨s, hs, hn⟩ := ih.mp hxs
        constructor
        · intro _; exact ⟨s, List.mem_cons_of_mem _ hs, hn⟩
        · intro _; trivial
      · simp only [Option.some_bind]
        constructor
        · intro h; exact absurd h (by simp)
        · rintro ⟨s, hs, hn⟩
          rcases List.mem_cons.mp hs with rfl | hs2
          · rw [hfx] at hn; exact absurd hn (by simp)
          · rw [ih.mpr ⟨s, hs2, hn⟩] at hxs; exact absurd hxs (by simp)

theorem optionMap_eq_some_map {α β : Type} {f : α → Option β} (dflt : β) :
    ∀ {L : List α} {cs : List β}, optionMap f L = some cs →
      cs = L.map (fun s => (f s).getD dflt) := by
  intro L
  induction L with
  | nil =>
    intro cs h
    injection h with h
    rw [← h]; rfl
  | cons x xs ih =>
    intro cs h
    show cs = (f x).getD dflt :: xs.map (fun s => (f s).getD dflt)
    rcases hfx : f x with _ | y
    · rw [show optionMap f (x :: xs) =
        ((f x).bind fun y => (optionMap f xs).bind fun ys => some (y :: ys))
        from rfl, hfx] at h
      exact absurd h (by simp)
    · rw [show optionMap f (x :: xs) =
        ((f x).bind fun y => (optionMap f xs).bind fun ys => some (y :: ys))
        from rfl, hfx] at h
      rcases hxs : optionMap f xs with _ | ys
      · rw [hxs] at h
        exact absurd h (by simp)
      · rw [hxs] at h
        simp only [Option.some_bind, Option.some.injEq] at h
        rw [← h, ih hxs]
        rfl

theorem optionMap_mem_isSome {α β : Type} {f : α → Option β}
    {L : List α} {cs : List β} (h : optionMap f L = some cs) {s : α}
    (hs : s ∈ L) : ∃ v, f s = some v := by
  rcases hfs : f s with _ | v
  · rw [optionMap_eq_none_iff.mpr ⟨s, hs, hfs⟩] at h
    exact absurd h (by simp)
  · exact ⟨v, rfl⟩

theorem foldl_mod_mul (n2 : Int) (hn2 : 1 < n2) :
    ∀ (cs : List Int) (a : Int), 0 ≤ a → a < n2 →
      (∀ c ∈ cs, 0 ≤ c ∧ c < n2) →
      cs.foldl (fun x y => (x * y).tmod n2) a = (a * cs.prod) % n2 := by
  intro cs
  induction cs with
  | nil =>
    intro a h0 h1 _
    rw [List.foldl_nil, List.prod_nil, mul_one, Int.emod_eq_of_lt h0 h1]
  | cons c cs' ih =>
    intro a h0 h1 hmem
    rw [List.foldl_cons, List.prod_cons]
    have hc := hmem c (List.mem_cons_self _ _)
    have hac : (a * c).tmod n2 = (a * c) % n2 :=
      Int.tmod_eq_emod (mul_nonneg h0 hc.1) (by omega)
    rw [hac, ih _ (Int.emod_nonneg _ (by omega)) (Int.emod_lt_of_pos _ (by omega))
      (fun x hx => hmem x (List.mem_cons_of_mem _ hx))]
    rw [Int.mul_emod ((a * c) % n2) cs'.prod, Int.emod_emod_of_dvd _ dvd_rfl,
      ← Int.mul_emod, mul_assoc]

theorem erase_eq_eraseIdx {α : Type} [DecidableEq α] :
    ∀ {L : List α} {i : Nat} {s : α}, L.get? i = some s → s ∉ L.take i →
      L.erase s = L.eraseIdx i := by
  intro L
  induction L with
  | nil => intro i s h _; simp at h
  | cons x L' ih =>
    intro i s hget htake
    match i with
    | 0 =>
      injection hget with hx
      subst hx
      rw [List.eraseIdx_cons_zero, List.erase_cons_head]
    | k + 1 =>
      have hxs : x ≠ s := by
        intro he
        exact htake (by rw [he]; exact List.mem_cons_self _ _)
      rw [List.eraseIdx_cons_succ,
        List.erase_cons_tail (by simp [hxs]),
        ih hget (fun hm => htake (List.mem_cons_of_mem _ hm))]

/-- The order-free value of one `share_combine` term: the Lagrange fold
over the ids of all the *other* shares, then the `pow_mod`. -/
def termOf (pk : PublicKey) (L : List PartialDecryption)
    (s : PartialDecryption) : Option Int :=
  pow_mod s.val
    ((lamFold s.id pk.delta ((L.erase s).map PartialDecryption.id)) * 2) pk.n2

theorem combineTerm_eq_termOf (pk : PublicKey) {L : List PartialDecryption}
    {i : Nat} {s : PartialDecryption} (hget : L.get? i = some s)
    (hnd : (L.map PartialDecryption.id).Nodup) :
    combineTerm pk L i s = termOf pk L s := by
  have htake : s ∉ L.take i := by
    intro hmem
    obtain ⟨j, hj⟩ := List.mem_iff_get?.mp hmem
    have hjlt : j < i := by
      have := List.get?_eq_some.mp hj
      have hlen := this.1
      have : (L.take i).length ≤ i := by
        rw [List.length_take]
        omega
      omega
    rw [List.get?_take hjlt] at hj
    exact nodup_ids_ne hnd hget hj (by omega) rfl
  unfold combineTerm termOf
  rw [lambdaLoop_skip s.id i L 0 pk.delta (Nat.zero_le i)
    (fun k x hk hkne => nodup_ids_ne hnd hget hk (by omega)), Nat.sub_zero,
    erase_eq_eraseIdx hget htake]
  rfl

theorem combineTerms_eq_optionMap (pk : PublicKey)
    {L : List PartialDecryption} (hnd : (L.map PartialDecryption.id).Nodup) :
    ∀ (rest : List PartialDecryption) (k : Nat),
      (∀ m s, rest.get? m = some s → L.get? (k + m) = some s) →
      combineTerms pk L k rest = optionMap (termOf pk L) rest := by
  intro rest
  induction rest with
  | nil => intro k _; rfl
  | cons s rest' ih =>
    intro k hpos
    show ((combineTerm pk L k s).bind fun c =>
        (combineTerms pk L (k + 1) rest').bind fun cs => some (c :: cs)) =
      ((termOf pk L s).bind fun c =>
        (optionMap (termOf pk L) rest').bind fun cs => some (c :: cs))
    rw [combineTerm_eq_termOf pk (by rw [← Nat.add_zero k]; exact hpos 0 s rfl)
        hnd,
      ih (k + 1) (fun m x hm => by
        rw [show k + 1 + m = k + (m + 1) by omega]; exact hpos (m + 1) x hm)]

theorem share_combine_eq_optionMap (pk : PublicKey)
    (L : List PartialDecryption) (hnd : (L.map PartialDecryption.id).Nodup) :
    pk.share_combine L = (optionMap (termOf pk L) L).bind fun cs =>
      some (Except.ok ((((cs.foldl (fun a b => (a * b).tmod pk.n2) 1) - 1).tdiv
        pk.n * pk.combine_shares_constant).tmod pk.n)) := by
  show ((combineTerms pk L 0 L).bind _) = _
  rw [combineTerms_eq_optionMap pk hnd L 0
    (fun m s hm => by rw [Nat.zero_add]; exact hm)]

/-! ### Permutation invariance of `share_combine` on legitimate ids -/

/-- With distinct ids from `{1..l}` and `delta = l!`, the interleaved fold
depends only on the multiset of other ids (both runs compute the same
exact integer). -/
theorem lamFold_perm (l sid : Nat) (h1 : 1 ≤ sid) (h2 : sid ≤ l)
    (o1 o2 : List Nat) (hperm : o1.Perm o2) (hnd : o1.Nodup)
    (hsid : sid ∉ o1) (hmem : ∀ t ∈ o1, 1 ≤ t ∧ t ≤ l) :
    lamFold sid ((Nat.factorial l : Nat) : Int) o1 =
      lamFold sid ((Nat.factorial l : Nat) : Int) o2 := by
  have he1 := lamFold_exact l sid h1 h2 o1 [] ((Nat.factorial l : Nat) : Int)
    (by simpa using hnd) (by simpa using hsid) (by simpa using hmem) (by simp)
  have he2 := lamFold_exact l sid h1 h2 o2 [] ((Nat.factorial l : Nat) : Int)
    (by simpa using hperm.nodup_iff.mp hnd)
    (by simpa using fun hm => hsid (hperm.mem_iff.mpr hm))
    (by simpa using fun t ht => hmem t (hperm.mem_iff.mpr ht)) (by simp)
  simp only [List.nil_append] at he1 he2
  have hD : (o2.map fun t : Nat => (sid : Int) - (t : Int)).prod =
      (o1.map fun t : Nat => (sid : Int) - (t : Int)).prod :=
    ((hperm.map _).prod_eq).symm
  have hN : (o2.map fun t : Nat => -(t : Int)).prod =
      (o1.map fun t : Nat => -(t : Int)).prod :=
    ((hperm.map _).prod_eq).symm
  rw [hD, hN] at he2
  exact mul_right_cancel₀ (prodD_ne_zero sid o1 hsid) (he1.trans he2.symm)

theorem not_mem_erase_map_id :
    ∀ {L : List PartialDecryption} {s : PartialDecryption},
      (L.map PartialDecryption.id).Nodup → s ∈ L →
      s.id ∉ (L.erase s).map PartialDecryption.id := by
  intro L
  induction L with
  | nil => intro s _ hs; simp at hs
  | cons x L' ih =>
    intro s hnd hs
    rcases List.mem_cons.mp hs with rfl | hs'
    · rw [List.erase_cons_head]
      exact (List.nodup_cons.mp hnd).1
    · rcases eq_or_ne x s with rfl | hxs
      · rw [List.erase_cons_head]
        exact (List.nodup_cons.mp hnd).1
      · rw [List.erase_cons_tail (by simp [hxs]), List.map_cons]
        intro hmem
        rcases List.mem_cons.mp hmem with he | hmem'
        · exact (List.nodup_cons.mp hnd).1
            (by rw [← he]; exact List.mem_map_of_mem _ hs')
        · exact ih (List.nodup_cons.mp hnd).2 hs' hmem'

theorem termOf_perm (pk : PublicKey) (l : Nat)
    (hdelta : pk.delta = ((Nat.factorial l : Nat) : Int))
    {L1 L2 : List PartialDecryption} {s : PartialDecryption}
    (hperm : L1.Perm L2) (hs : s ∈ L1)
    (hnd : (L1.map PartialDecryption.id).Nodup)
    (hmem : ∀ x ∈ L1, 1 ≤ x.id ∧ x.id ≤ l) :
    termOf pk L1 s = termOf pk L2 s := by
  unfold termOf
  rw [hdelta]
  have hperm' : ((L1.erase s).map PartialDecryption.id).Perm
      ((L2.erase s).map PartialDecryption.id) := (hperm.erase s).map _
  have hnd1 : ((L1.erase s).map PartialDecryption.id).Nodup := by
    exact ((List.erase_sublist s L1).map _).nodup hnd
  have hsid : s.id ∉ (L1.erase s).map PartialDecryption.id :=
    not_mem_erase_map_id hnd hs
  have hmem1 : ∀ t ∈ (L1.erase s).map PartialDecryption.id,
      1 ≤ t ∧ t ≤ l := by
    intro t ht
    obtain ⟨x, hx, rfl⟩ := List.mem_map.mp ht
    exact hmem x ((List.erase_sublist s L1).mem hx)
  have hsl : 1 ≤ s.id ∧ s.id ≤ l := hmem s hs
  rw [lamFold_perm l s.id hsl.1 hsl.2 _ _ hperm' hnd1 hsid hmem1]

/-- C3 (amended).  For key pairs produced by `generate_key_pair` and
partial decryptions whose distinct ids lie in `{1..l}`, `share_combine`
returns the same result for any permutation of the shares: every scaled
Lagrange fold is exact, hence order-free, and the modular product is
commutative. -/
theorem share_combine_perm (p q pp qq : Int) (l w : Nat) (pk : PublicKey)
    (sk : PrivateKey) (hp : p = 2 * pp + 1) (hq : q = 2 * qq + 1)
    (hpp : 1 ≤ pp) (hqq : 1 ≤ qq)
    (hkey : generate_key_pair p q l w = some (pk, sk))
    (shares shares' : List PartialDecryption) (hperm : shares.Perm shares')
    (hnd : (shares.map PartialDecryption.id).Nodup)
    (hmem : ∀ s ∈ shares, 1 ≤ s.id ∧ s.id ≤ l) :
    pk.share_combine shares' = pk.share_combine shares := by
  obtain ⟨d, csc, hc, hi, hpk, hsk⟩ := generate_key_pair_parts hkey
  have hdelta : pk.delta = ((Nat.factorial l : Nat) : Int) := by rw [hpk]
  have hn2 : pk.n2 = (p * q) ^ 2 := by rw [hpk]
  have hn9 : (9 : Int) ≤ p * q := by nlinarith
  have hn2pos : 1 < pk.n2 := by rw [hn2]; nlinarith
  have hnd' : (shares'.map PartialDecryption.id).Nodup :=
    ((hperm.map PartialDecryption.id).nodup_iff).mp hnd
  have hmem' : ∀ s ∈ shares', 1 ≤ s.id ∧ s.id ≤ l :=
    fun s hs => hmem s (hperm.mem_iff.mpr hs)
  have hptw : ∀ s ∈ shares, termOf pk shares s = termOf pk shares' s :=
    fun s hs => termOf_perm pk l hdelta hperm hs hnd hmem
  rw [share_combine_eq_optionMap pk shares hnd,
    share_combine_eq_optionMap pk shares' hnd']
  rcases h1 : optionMap (termOf pk shares) shares with _ | cs1
  · obtain ⟨s, hs, hnone⟩ := optionMap_eq_none_iff.mp h1
    have : optionMap (termOf pk shares') shares' = none :=
      optionMap_eq_none_iff.mpr ⟨s, hperm.mem_iff.mp hs, by
        rw [← hptw s hs]; exact hnone⟩
    rw [this]
  · have h2 : ∃ cs2, optionMap (termOf pk shares') shares' = some cs2 := by
      rcases h2 : optionMap (termOf pk shares') shares' with _ | cs2
      · obtain ⟨s, hs, hnone⟩ := optionMap_eq_none_iff.mp h2
        have hsm : s ∈ shares := hperm.mem_iff.mpr hs
        obtain ⟨v, hv⟩ := optionMap_mem_isSome h1 hsm
        rw [hptw s hsm] at hv
        rw [hv] at hnone
        exact absurd hnone (by simp)
      · exact ⟨cs2, rfl⟩
    obtain ⟨cs2, h2⟩ := h2
    rw [h2]
    -- the two term lists are permutations with equal products
    have hcs1 : cs1 = shares.map (fun s => (termOf pk shares s).getD 1) :=
      optionMap_eq_some_map 1 h1
    have hcs2 : cs2 = shares'.map (fun s => (termOf pk shares' s).getD 1) :=
      optionMap_eq_some_map 1 h2
    have hprodeq : cs1.prod = cs2.prod := by
      rw [hcs1, hcs2]
      have e1 : shares.map (fun s => (termOf pk shares s).getD 1) =
          shares.map (fun s => (termOf pk shares' s).getD 1) :=
        List.map_congr_left (fun s hs => by rw [hptw s hs])
      rw [e1]
      exact (hperm.map _).prod_eq
    have hbnd1 : ∀ c ∈ cs1, 0 ≤ c ∧ c < pk.n2 := by
      intro c hcmem
      rw [hcs1] at hcmem
      obtain ⟨s, hs, rfl⟩ := List.mem_map.mp hcmem
      obtain ⟨v, hv⟩ := optionMap_mem_isSome h1 hs
      rw [hv, show (some v).getD 1 = v from rfl]
      exact pow_mod_bounds (by omega)
        (show pow_mod s.val
          ((lamFold s.id pk.delta
            ((shares.erase s).map PartialDecryption.id)) * 2) pk.n2 = some v
          from hv)
    have hbnd2 : ∀ c ∈ cs2, 0 ≤ c ∧ c < pk.n2 := by
      intro c hcmem
      rw [hcs2] at hcmem
      obtain ⟨s, hs, rfl⟩ := List.mem_map.mp hcmem
      obtain ⟨v, hv⟩ := optionMap_mem_isSome h2 hs
      rw [hv, show (some v).getD 1 = v from rfl]
      exact pow_mod_bounds (by omega)
        (show pow_mod s.val
          ((lamFold s.id pk.delta
            ((shares'.erase s).map PartialDecryption.id)) * 2) pk.n2 = some v
          from hv)
    simp only [Option.some_bind]
    rw [foldl_mod_mul pk.n2 hn2pos cs1 1 (by omega) (by omega) hbnd1,
      foldl_mod_mul pk.n2 hn2pos cs2 1 (by omega) (by omega) hbnd2, hprodeq]

set_option maxRecDepth 4000 in
/-! ### `pow_mod` through the unit group of `ZMod N` -/

theorem emod_toNat_cast {b : Int} {N : ℕ} (hN : 0 < N) :
    (((b % (N : Int)).toNat : ℕ) : ZMod N) = ((b : ℤ) : ZMod N) := by
  have hNz : (N : Int) ≠ 0 := by exact_mod_cast hN.ne'
  have h1 : (((b % (N : Int)).toNat : ℤ)) = b % (N : Int) :=
    Int.toNat_of_nonneg (Int.emod_nonneg _ hNz)
  have h2 : ((((b % (N : Int)).toNat : ℤ)) : ZMod N) = ((b : ℤ) : ZMod N) := by
    rw [h1, ZMod.intCast_eq_intCast_iff]
    show b % (N : Int) % (N : Int) = b % (N : Int)
    exact Int.emod_emod_of_dvd _ dvd_rfl
  exact_mod_cast h2

theorem coprime_emod_toNat {b : Int} {N : ℕ} (hN : 0 < N)
    (hb : Int.gcd b (N : Int) = 1) :
    Nat.Coprime (b % (N : Int)).toNat N := by
  have hNz : (N : Int) ≠ 0 := by exact_mod_cast hN.ne'
  have h1 : Int.gcd (b % (N : Int)) (N : Int) = 1 := by
    rw [gcd_emod_left]; exact hb
  have h2 : (((b % (N : Int)).toNat : ℤ)) = b % (N : Int) :=
    Int.toNat_of_nonneg (Int.emod_nonneg _ hNz)
  have h3 : Int.gcd (((b % (N : Int)).toNat : ℤ)) ((N : ℕ) : ℤ) = 1 := by
    rw [h2]; exact h1
  rwa [Int.gcd_natCast_natCast] at h3

theorem isUnit_intCast_of_gcd {b : Int} {N : ℕ} (hN : 0 < N)
    (hb : Int.gcd b (N : Int) = 1) : IsUnit ((b : ℤ) : ZMod N) := by
  rw [← emod_toNat_cast hN, ZMod.isUnit_iff_coprime]
  exact coprime_emod_toNat hN hb

/-- `pow_mod b e N` succeeds on a unit base and returns the canonical
representative of `u^e` (with `zpow` covering the negative-exponent
inversion). -/
theorem pow_mod_eq_val_unit {N : ℕ} (hN : 1 < N) {b : Int}
    (u : (ZMod N)ˣ) (hu : ((u : ZMod N)) = ((b : ℤ) : ZMod N)) (e : Int) :
    pow_mod b e (N : Int) =
      some ((((u ^ e : (ZMod N)ˣ) : ZMod N)).val : Int) := by
  have hnz : NeZero N := ⟨by omega⟩
  unfold pow_mod
  split
  case isTrue he =>
    congr 1
    have h1 : (u ^ e) = u ^ e.toNat := by
      conv_lhs => rw [← Int.toNat_of_nonneg he]
      rw [zpow_natCast]
    have h2 : ((u ^ e.toNat : (ZMod N)ˣ) : ZMod N) =
        ((b ^ e.toNat : ℤ) : ZMod N) := by
      rw [Units.val_pow_eq_pow_val, hu]
      push_cast
      rfl
    rw [h1, h2, ZMod.val_intCast]
  case isFalse he =>
    set k := (-e).toNat with hk
    have hke : (k : ℤ) = -e := Int.toNat_of_nonneg (by omega)
    have hbu : IsUnit ((b : ℤ) : ZMod N) := hu ▸ u.isUnit
    have hg : Int.gcd ((b ^ k) % (N : Int)) (N : Int) = 1 := by
      rw [gcd_emod_left]
      have hbase : Nat.Coprime (b % (N : Int)).toNat N := by
        have hb2 := hbu
        rw [← emod_toNat_cast (by omega : 0 < N), ZMod.isUnit_iff_coprime]
          at hb2
        exact hb2
      have hpow : Nat.Coprime ((b % (N : Int)).toNat ^ k) N := by
        have := Nat.Coprime.pow (k := (b % (N : Int)).toNat) (l := N) k 1 hbase
        rwa [pow_one] at this
      have h2 : (((b % (N : Int)).toNat : ℤ)) = b % (N : Int) :=
        Int.toNat_of_nonneg (Int.emod_nonneg _ (by
          exact_mod_cast (by omega : (0:ℕ) < N).ne'))
      have h3 : Int.gcd ((((b % (N : Int)).toNat ^ k : ℕ) : ℤ))
          ((N : ℕ) : ℤ) = 1 := by
        rwa [Int.gcd_natCast_natCast]
      have h4 : (((b % (N : Int)).toNat ^ k : ℕ) : ℤ) ≡ b ^ k
          [ZMOD (N : Int)] := by
        push_cast
        rw [h2]
        exact Int.ModEq.pow k (Int.emod_emod_of_dvd _ dvd_rfl)
      calc Int.gcd (b ^ k) (N : Int)
          = Int.gcd ((b ^ k) % (N : Int)) (N : Int) := (gcd_emod_left _ _).symm
        _ = Int.gcd (((((b % (N : Int)).toNat ^ k : ℕ) : ℤ)) % (N : Int))
            (N : Int) := by rw [h4]
        _ = Int.gcd ((((b % (N : Int)).toNat ^ k : ℕ) : ℤ)) (N : Int) :=
            gcd_emod_left _ _
        _ = 1 := h3
    obtain ⟨v, hv, h0, hlt, hinv⟩ := invert_eq_some hg
      (by exact_mod_cast (by omega : 1 ≤ N))
    rw [hv]
    congr 1
    have hwlt : (((((u ^ e : (ZMod N)ˣ) : ZMod N)).val : ℤ)) < (N : ℤ) := by
      exact_mod_cast ZMod.val_lt _
    refine inverse_unique h0 hlt (Int.natCast_nonneg _) hwlt hinv ?_
    show ((b ^ k) % (N : Int) *
      ((((u ^ e : (ZMod N)ˣ) : ZMod N)).val : ℤ)) % (N : Int) = 1 % (N : Int)
    have step1 : ((b ^ k) % (N : Int)) *
        ((((u ^ e : (ZMod N)ˣ) : ZMod N)).val : ℤ) ≡
        (b ^ k) * ((((u ^ e : (ZMod N)ˣ) : ZMod N)).val : ℤ)
        [ZMOD (N : Int)] :=
      Int.ModEq.mul_right _ (Int.emod_emod_of_dvd _ dvd_rfl)
    have step2 : (((b ^ k) *
        ((((u ^ e : (ZMod N)ˣ) : ZMod N)).val : ℤ) : ℤ) : ZMod N) =
        (((1 : ℤ)) : ZMod N) := by
      push_cast
      rw [← hu]
      have e2 : ((((((u ^ e : (ZMod N)ˣ) : ZMod N)).val : ℕ)) : ZMod N) =
          ((u ^ e : (ZMod N)ˣ) : ZMod N) := by
        rw [ZMod.natCast_val, ZMod.cast_id]
      rw [e2]
      have e4 : (u : ZMod N) ^ k = ((u ^ (k : ℤ) : (ZMod N)ˣ) : ZMod N) := by
        rw [zpow_natCast]
        exact (Units.val_pow_eq_pow_val u k).symm
      rw [e4, ← Units.val_mul, ← zpow_add, hke]
      simp
    exact step1.trans ((ZMod.intCast_eq_intCast_iff _ _ _).mp step2)

/-! ### The `1 + n` binomial identity and Euler's theorem -/

theorem one_add_cast_pow (N : ℕ) (j : ℕ) :
    ((1 + (N : ZMod (N ^ 2))) ^ j) =
      1 + (j : ZMod (N ^ 2)) * (N : ZMod (N ^ 2)) := by
  induction j with
  | zero => simp
  | succ j ih =>
    have hNN : (N : ZMod (N ^ 2)) * (N : ZMod (N ^ 2)) = 0 := by
      have h := ZMod.natCast_self (N ^ 2)
      push_cast at h
      rw [← pow_two]
      exact h
    have hps : (1 + (N : ZMod (N ^ 2))) ^ (j + 1) =
        (1 + (N : ZMod (N ^ 2))) ^ j * (1 + (N : ZMod (N ^ 2))) := pow_succ _ _
    rw [hps, ih]
    have e1 : (1 + (j : ZMod (N ^ 2)) * (N : ZMod (N ^ 2))) *
        (1 + (N : ZMod (N ^ 2))) =
        1 + ((j : ZMod (N ^ 2)) + 1) * (N : ZMod (N ^ 2)) +
          (j : ZMod (N ^ 2)) * ((N : ZMod (N ^ 2)) * (N : ZMod (N ^ 2))) := by
      ring
    rw [e1, hNN, mul_zero, add_zero]
    push_cast
    ring

theorem totient_sq_safe (p q pp qq : ℕ) (hp : Nat.Prime p) (hq : Nat.Prime q)
    (hne : p ≠ q) (hpf : p = 2 * pp + 1) (hqf : q = 2 * qq + 1) :
    Nat.totient ((p * q) ^ 2) = 4 * (p * q * (pp * qq)) := by
  have h1 : (p * q) ^ 2 = p ^ 2 * q ^ 2 := by ring
  have hco : Nat.Coprime (p ^ 2) (q ^ 2) :=
    Nat.Coprime.pow 2 2 ((Nat.coprime_primes hp hq).mpr hne)
  rw [h1, Nat.totient_mul hco, Nat.totient_prime_pow hp (by norm_num),
    Nat.totient_prime_pow hq (by norm_num)]
  subst hpf hqf
  simp only [pow_one, Nat.add_sub_cancel]
  ring

theorem zpow_eq_of_modeq {G : Type} [Group G] (u : G) (T : ℕ) (hT : u ^ T = 1)
    {a b : ℤ} (h : a ≡ b [ZMOD (T : ℤ)]) : u ^ a = u ^ b := by
  obtain ⟨k, hk⟩ := Int.modEq_iff_dvd.mp h
  have hb : b = a + (T : ℤ) * k := by omega
  rw [hb, zpow_add, zpow_mul, zpow_natCast, hT, one_zpow, mul_one]

theorem list_prod_zpow {α G : Type} [Group G] (u : G) (f : α → ℤ) :
    ∀ L : List α, (L.map (fun s => u ^ (f s))).prod = u ^ ((L.map f).sum) := by
  intro L
  induction L with
  | nil => simp
  | cons x L' ih =>
    rw [List.map_cons, List.prod_cons, List.map_cons, List.sum_cons, zpow_add,
      ih]

theorem list_val_prod_emod (N : ℕ) (hN : 1 < N) :
    ∀ us : List ((ZMod N)ˣ),
      ((us.map (fun u : (ZMod N)ˣ => (((u : ZMod N)).val : ℤ))).prod) %
          (N : Int) =
        ((((us.prod : (ZMod N)ˣ) : ZMod N)).val : Int) := by
  have hnz : NeZero N := ⟨by omega⟩
  intro us
  induction us with
  | nil =>
    rw [List.map_nil, List.prod_nil, List.prod_nil]
    have hf : Fact (1 < N) := ⟨hN⟩
    rw [Units.val_one, ZMod.val_one]
    rw [Int.emod_eq_of_lt (by omega) (by exact_mod_cast hN)]
    norm_num
  | cons u us' ih =>
    rw [List.map_cons, List.prod_cons, List.prod_cons]
    have h1 : (((u : ZMod N).val : ℤ)) % (N : Int) =
        (((u : ZMod N)).val : ℤ) :=
      Int.emod_eq_of_lt (Int.natCast_nonneg _) (by exact_mod_cast ZMod.val_lt _)
    rw [Int.mul_emod, h1, ih, Units.val_mul, ZMod.val_mul]
    push_cast
    rfl

/-! ### Evaluation of `Polynomial::compute` -/

/-- Monomial-form evaluation of a coefficient segment starting at power
`i`, at the point `x + 1`. -/
def evalFrom (x : Nat) : Nat → List Int → Int
  | _, [] => 0
  | i, c :: cs => c * ((x : Int) + 1) ^ i + evalFrom x (i + 1) cs

/-- Horner evaluation of a coefficient list. -/
def evalZ (cs : List Int) (y : Int) : Int :=
  cs.foldr (fun c acc => c + y * acc) 0

theorem evalFrom_eq (x : Nat) :
    ∀ (cs : List Int) (i : Nat),
      evalFrom x i cs = ((x : Int) + 1) ^ i * evalZ cs ((x : Int) + 1) := by
  intro cs
  induction cs with
  | nil => intro i; simp [evalFrom, evalZ]
  | cons c cs' ih =>
    intro i
    show c * ((x : Int) + 1) ^ i + evalFrom x (i + 1) cs' = _
    rw [ih (i + 1),
      show evalZ (c :: cs') ((x : Int) + 1) =
        c + ((x : Int) + 1) * evalZ cs' ((x : Int) + 1) from rfl]
    ring

theorem computeLoop_spec (nm : Int) (hnm : 0 < nm) (x : Nat) :
    ∀ (cs : List Int) (i : Nat) (rop : Int), 0 ≤ rop →
      (∀ c ∈ cs, 0 ≤ c) →
      0 ≤ computeLoop nm x i rop cs ∧
      computeLoop nm x i rop cs ≡ rop + evalFrom x i cs [ZMOD nm] := by
  intro cs
  induction cs with
  | nil =>
    intro i rop h0 _
    exact ⟨h0, by simp [computeLoop, evalFrom]⟩
  | cons c cs' ih =>
    intro i rop h0 hcs
    show 0 ≤ computeLoop nm x (i + 1) ((rop + ((x : Int) + 1) ^ i * c).tmod nm)
        cs' ∧ _
    have hc0 : 0 ≤ c := hcs c (List.mem_cons_self _ _)
    have hstep0 : 0 ≤ rop + ((x : Int) + 1) ^ i * c := by positivity
    have htm : (rop + ((x : Int) + 1) ^ i * c).tmod nm =
        (rop + ((x : Int) + 1) ^ i * c) % nm :=
      Int.tmod_eq_emod hstep0 (by omega)
    have hrop' : 0 ≤ (rop + ((x : Int) + 1) ^ i * c).tmod nm := by
      rw [htm]; exact Int.emod_nonneg _ (by omega)
    obtain ⟨hges, hcong⟩ := ih (i + 1) _ hrop'
      (fun a ha => hcs a (List.mem_cons_of_mem _ ha))
    refine ⟨hges, ?_⟩
    have h1 : (rop + ((x : Int) + 1) ^ i * c).tmod nm ≡
        rop + ((x : Int) + 1) ^ i * c [ZMOD nm] := by
      rw [htm]
      exact Int.emod_emod_of_dvd _ dvd_rfl
    calc computeLoop nm x (i + 1) ((rop + ((x : Int) + 1) ^ i * c).tmod nm) cs'
        ≡ (rop + ((x : Int) + 1) ^ i * c).tmod nm + evalFrom x (i + 1) cs'
          [ZMOD nm] := hcong
      _ ≡ rop + ((x : Int) + 1) ^ i * c + evalFrom x (i + 1) cs' [ZMOD nm] :=
          Int.ModEq.add_right _ h1
      _ = rop + evalFrom x i (c :: cs') := by
          show _ = rop + (c * ((x : Int) + 1) ^ i + evalFrom x (i + 1) cs')
          ring

theorem compute_si_spec (sk : PrivateKey) (rand : List Int) (x : Nat)
    (hd : 0 ≤ sk.d) (hr : ∀ c ∈ rand, 0 ≤ c) (hnm : 0 < sk.nm) :
    ((Polynomial.new sk rand).compute x).i = x + 1 ∧
    0 ≤ ((Polynomial.new sk rand).compute x).si ∧
    ((Polynomial.new sk rand).compute x).si ≡
      evalZ (sk.d :: rand) ((x : Int) + 1) [ZMOD sk.nm] := by
  have hsi : ((Polynomial.new sk rand).compute x).si =
      computeLoop sk.nm x 1 sk.d rand := rfl
  obtain ⟨h0, hc⟩ := computeLoop_spec sk.nm hnm x rand 1 sk.d hd hr
  refine ⟨rfl, by rw [hsi]; exact h0, ?_⟩
  rw [hsi]
  have he : sk.d + evalFrom x 1 rand = evalZ (sk.d :: rand) ((x : Int) + 1) := by
    rw [evalFrom_eq, pow_one,
      show evalZ (sk.d :: rand) ((x : Int) + 1) =
        sk.d + ((x : Int) + 1) * evalZ rand ((x : Int) + 1) from rfl]
  rw [← he]
  exact hc


end PHT

/-- Rational polynomials (`PHT.Polynomial` shadows Mathlib's name inside
the namespace). -/
abbrev RatPoly : Type := Polynomial ℚ

namespace PHT

/-! ### The scaled Lagrange interpolation identity over `ℚ` -/

/-- The coefficient list as a rational polynomial (Horner form). -/
noncomputable def polyQ (cs : List ℚ) : RatPoly :=
  cs.foldr (fun c acc => Polynomial.C c + Polynomial.X * acc) 0

theorem polyQ_cons (c : ℚ) (cs : List ℚ) :
    polyQ (c :: cs) = Polynomial.C c + Polynomial.X * polyQ cs := rfl

theorem polyQ_coeff_eq_zero :
    ∀ (cs : List ℚ) (m : Nat), cs.length ≤ m → (polyQ cs).coeff m = 0 := by
  intro cs
  induction cs with
  | nil => intro m _; simp [polyQ]
  | cons c cs' ih =>
    intro m hm
    match m with
    | 0 => exact absurd hm (by simp)
    | m' + 1 =>
      rw [polyQ_cons, Polynomial.coeff_add, Polynomial.coeff_X_mul,
        Polynomial.coeff_C, ih m' (by simpa using hm)]
      simp

theorem polyQ_degree_lt (cs : List ℚ) :
    (polyQ cs).degree < (cs.length : WithBot ℕ) :=
  (Polynomial.degree_lt_iff_coeff_zero _ _).mpr
    (fun m hm => polyQ_coeff_eq_zero cs m (by exact_mod_cast hm))

theorem polyQ_eval (cs : List Int) (y : Int) :
    ((evalZ cs y : ℤ) : ℚ) =
      (polyQ (cs.map (fun c : Int => (c : ℚ)))).eval ((y : ℤ) : ℚ) := by
  induction cs with
  | nil => simp [evalZ, polyQ]
  | cons c cs' ih =>
    have h1 : evalZ (c :: cs') y = c + y * evalZ cs' y := rfl
    have h2 : polyQ ((c :: cs').map (fun c : Int => (c : ℚ))) =
        Polynomial.C (c : ℚ) +
          Polynomial.X * polyQ (cs'.map (fun c : Int => (c : ℚ))) := rfl
    rw [h1, h2, Polynomial.eval_add, Polynomial.eval_C, Polynomial.eval_mul,
      Polynomial.eval_X, ← ih]
    push_cast
    ring

theorem nodup_toFinset_erase {α : Type} [DecidableEq α] (S : List α) (s : α)
    (hnd : S.Nodup) : (S.erase s).toFinset = S.toFinset.erase s := by
  ext x
  rw [List.mem_toFinset, Finset.mem_erase, List.mem_toFinset,
    hnd.mem_erase_iff]

/-- The scaled Lagrange interpolation identity: if `lam` times the product
of differences equals `l!` times the product of negated other ids (the
exact-division identity established for the `share_combine` loop), then
summing `lam s · P(id_s)` over the shares recovers `l! · P(0)`, for any
integer polynomial `P` (as a Horner coefficient list) of degree below the
number of shares. -/
theorem lagrange_sum (l : Nat) (S : List PartialDecryption)
    (coeffs : List Int) (lam : PartialDecryption → Int)
    (hnd : (S.map PartialDecryption.id).Nodup)
    (hlen : coeffs.length ≤ S.length)
    (hlam : ∀ s ∈ S,
      lam s * ((S.erase s).map
          (fun t : PartialDecryption =>
            ((s.id : Nat) : Int) - ((t.id : Nat) : Int))).prod =
        (Nat.factorial l : Int) *
          ((S.erase s).map
            (fun t : PartialDecryption => -(((t.id : Nat) : Int)))).prod) :
    (S.map (fun s : PartialDecryption =>
        lam s * evalZ coeffs (((s.id : Nat) : Int)))).sum =
      (Nat.factorial l : Int) * evalZ coeffs 0 := by
  classical
  have hndS : S.Nodup := hnd.of_map
  set F : Finset PartialDecryption := S.toFinset with hF
  set v : PartialDecryption → ℚ :=
    fun s : PartialDecryption => ((s.id : Nat) : ℚ) with hv
  have hvinj : Set.InjOn v F := by
    intro a ha b hb hab
    have ha' : a ∈ S := List.mem_toFinset.mp ha
    have hb' : b ∈ S := List.mem_toFinset.mp hb
    have hab' : ((a.id : Nat) : ℚ) = ((b.id : Nat) : ℚ) := hab
    have hid : a.id = b.id := by exact_mod_cast hab'
    exact List.inj_on_of_nodup_map hnd ha' hb' hid
  set f : RatPoly := polyQ (coeffs.map (fun c : Int => (c : ℚ)))
    with hfdef
  have hcard : F.card = S.length := List.toFinset_card_of_nodup hndS
  have hdeg : f.degree < (F.card : WithBot ℕ) := by
    refine lt_of_lt_of_le (polyQ_degree_lt _) ?_
    rw [List.length_map, hcard]
    exact_mod_cast hlen
  have hinterp := Lagrange.eq_interpolate hvinj hdeg
  have heval := congrArg (Polynomial.eval (0 : ℚ)) hinterp
  rw [Lagrange.interpolate_apply, Polynomial.eval_finset_sum] at heval
  have hbasis : ∀ s' ∈ F, (Lagrange.basis F v s').eval 0 =
      ∏ j ∈ F.erase s', ((v s' - v j)⁻¹ * (0 - v j)) := by
    intro s' _
    rw [Lagrange.basis, Polynomial.eval_prod]
    refine Finset.prod_congr rfl ?_
    intro j _
    rw [Lagrange.basisDivisor, Polynomial.eval_mul, Polynomial.eval_C,
      Polynomial.eval_sub, Polynomial.eval_X, Polynomial.eval_C]
  have herase : ∀ s' ∈ F, (S.erase s').toFinset = F.erase s' := by
    intro s' _
    exact nodup_toFinset_erase S s' hndS
  have hDne : ∀ s' ∈ F, ∀ j ∈ F.erase s', v s' - v j ≠ 0 := by
    intro s' hs' j hj
    have hj' : j ∈ F := Finset.mem_of_mem_erase hj
    have hne : j ≠ s' := Finset.ne_of_mem_erase hj
    intro hz
    have hvv : v j = v s' := by
      have := sub_eq_zero.mp hz
      linarith
    exact hne (hvinj hj' hs' hvv)
  have hlamQ : ∀ s' ∈ F, (lam s' : ℚ) =
      ((Nat.factorial l : Int) : ℚ) *
        ∏ j ∈ F.erase s', ((v s' - v j)⁻¹ * (0 - v j)) := by
    intro s' hs'
    have hs'' : s' ∈ S := List.mem_toFinset.mp hs'
    have hQ := congrArg (fun z : Int => (z : ℚ)) (hlam s' hs'')
    simp only [Int.cast_mul] at hQ
    have hnde : (S.erase s').Nodup := hndS.erase s'
    have hD : ((((S.erase s').map
        (fun t : PartialDecryption =>
          ((s'.id : Nat) : Int) - ((t.id : Nat) : Int))).prod : Int) : ℚ) =
        ∏ j ∈ F.erase s', (v s' - v j) := by
      rw [Int.cast_list_prod, List.map_map, ← herase s' hs',
        List.prod_toFinset _ hnde]
      refine congrArg List.prod (List.map_congr_left ?_)
      intro t _
      simp only [Function.comp_apply, hv]
      push_cast
      ring
    have hN : ((((S.erase s').map
        (fun t : PartialDecryption => -(((t.id : Nat) : Int)))).prod
          : Int) : ℚ) =
        ∏ j ∈ F.erase s', (0 - v j) := by
      rw [Int.cast_list_prod, List.map_map, ← herase s' hs',
        List.prod_toFinset _ hnde]
      refine congrArg List.prod (List.map_congr_left ?_)
      intro t _
      simp only [Function.comp_apply, hv]
      push_cast
      ring
    rw [hD, hN] at hQ
    have hprodD : (∏ j ∈ F.erase s', (v s' - v j)) ≠ 0 :=
      Finset.prod_ne_zero_iff.mpr (hDne s' hs')
    rw [Finset.prod_mul_distrib, Finset.prod_inv_distrib]
    rw [eq_comm, inv_mul_eq_div, ← mul_div_assoc, div_eq_iff hprodD]
    linear_combination -hQ
  -- assemble: multiply interpolation-at-0 by l!
  have heval2 : ((Nat.factorial l : Int) : ℚ) * f.eval 0 =
      ∑ s' ∈ F, (lam s' : ℚ) * f.eval (v s') := by
    rw [heval, Finset.mul_sum]
    refine Finset.sum_congr rfl ?_
    intro s' hs'
    rw [Polynomial.eval_mul, Polynomial.eval_C, hbasis s' hs',
      hlamQ s' hs']
    ring
  -- connect both sides with the integer quantities
  have hL : f.eval 0 = ((evalZ coeffs 0 : Int) : ℚ) := by
    have := polyQ_eval coeffs 0
    rw [Int.cast_zero] at this
    rw [← this]
  have hS : ∀ s' : PartialDecryption,
      f.eval (v s') = ((evalZ coeffs ((s'.id : Nat) : Int) : Int) : ℚ) := by
    intro s'
    have h := polyQ_eval coeffs ((s'.id : Nat) : Int)
    have hvs : v s' = (((s'.id : Nat) : Int) : ℚ) := by
      simp [hv]
    rw [hvs, hfdef]
    exact h.symm
  have hsum : ∑ s' ∈ F, (lam s' : ℚ) * f.eval (v s') =
      (((S.map (fun s : PartialDecryption =>
        lam s * evalZ coeffs (((s.id : Nat) : Int)))).sum : Int) : ℚ) := by
    rw [Int.cast_list_sum, List.map_map]
    rw [hF, List.sum_toFinset _ hndS]
    refine congrArg List.sum (List.map_congr_left ?_)
    intro s' _
    simp only [Function.comp_apply]
    rw [hS s']
    push_cast
    ring
  have final : (((S.map (fun s : PartialDecryption =>
      lam s * evalZ coeffs (((s.id : Nat) : Int)))).sum : Int) : ℚ) =
      (((Nat.factorial l : Int) * evalZ coeffs 0 : Int) : ℚ) := by
    rw [← hsum, ← heval2, hL]
    push_cast
    ring
  exact_mod_cast final

/-! ### The full decryption pipeline -/

theorem optionMap_all_some {α β : Type} (f : α → Option β) (g : α → β) :
    ∀ L : List α, (∀ s ∈ L, f s = some (g s)) →
      optionMap f L = some (L.map g) := by
  intro L
  induction L with
  | nil => intro _; rfl
  | cons x xs ih =>
    intro h
    show ((f x).bind fun y => (optionMap f xs).bind fun ys => some (y :: ys)) =
      some (g x :: xs.map g)
    rw [h x (List.mem_cons_self _ _), Option.some_bind,
      ih (fun s hs => h s (List.mem_cons_of_mem _ hs)), Option.some_bind]

theorem optionMap_map_all_some {α β γ : Type} (f : β → Option γ) (h : α → β)
    (g : α → γ) (L : List α) (hall : ∀ s ∈ L, f (h s) = some (g s)) :
    optionMap f (L.map h) = some (L.map g) := by
  induction L with
  | nil => rfl
  | cons x xs ih =>
    show ((f (h x)).bind fun y =>
        (optionMap f (xs.map h)).bind fun ys => some (y :: ys)) =
      some (g x :: xs.map g)
    rw [hall x (List.mem_cons_self _ _), Option.some_bind,
      ih (fun s hs => hall s (List.mem_cons_of_mem _ hs)), Option.some_bind]

theorem list_sum_modeq {α : Type} (f g : α → ℤ) (K : ℤ) :
    ∀ L : List α, (∀ s ∈ L, f s ≡ g s [ZMOD K]) →
      (L.map f).sum ≡ (L.map g).sum [ZMOD K] := by
  intro L
  induction L with
  | nil => intro _; rfl
  | cons x xs ih =>
    intro h
    rw [List.map_cons, List.map_cons, List.sum_cons, List.sum_cons]
    exact (h x (List.mem_cons_self _ _)).add
      (ih (fun s hs => h s (List.mem_cons_of_mem _ hs)))

theorem one_add_mul_mod_sq (N j : ℕ) (hN : 1 < N) :
    (1 + j * N) % N ^ 2 = 1 + j % N * N := by
  have hdm := Nat.div_add_mod j N
  have h1 : 1 + j * N = (1 + j % N * N) + N ^ 2 * (j / N) := by
    calc 1 + j * N = 1 + (N * (j / N) + j % N) * N := by rw [hdm]
      _ = (1 + j % N * N) + N ^ 2 * (j / N) := by ring
  rw [h1, Nat.add_mul_mod_self_left]
  apply Nat.mod_eq_of_lt
  have ha : j % N < N := Nat.mod_lt _ (by omega)
  have h2 : j % N * N ≤ (N - 1) * N := Nat.mul_le_mul_right _ (by omega)
  have h3 : (N - 1) * N = N * N - 1 * N := Nat.sub_mul N 1 N
  have h4 : N ≤ N * N := Nat.le_mul_of_pos_left N (by omega)
  have h5 : N ^ 2 = N * N := sq N
  omega

theorem intCast_val_eq {K : ℕ} (hK : 0 < K) (z : ZMod K) :
    ((z.val : ℤ) : ZMod K) = z := by
  have hnz : NeZero K := ⟨by omega⟩
  push_cast
  rw [ZMod.natCast_val, ZMod.cast_id]

theorem evalZ_cons_zero (c : Int) (cs : List Int) : evalZ (c :: cs) 0 = c := by
  show c + 0 * evalZ cs 0 = c
  ring

/-- In `ZMod N²`, `(1 + aN)(1 + bN) = 1 + (a + b)N`. -/
theorem one_add_mul_cast_mul (N a b : ℕ) :
    (((1 + a * N : ℕ) : ZMod (N ^ 2)) * ((1 + b * N : ℕ) : ZMod (N ^ 2))) =
      ((1 + (a + b) * N : ℕ) : ZMod (N ^ 2)) := by
  have hNN : (N : ZMod (N ^ 2)) * (N : ZMod (N ^ 2)) = 0 := by
    have h := ZMod.natCast_self (N ^ 2)
    push_cast at h
    rw [← pow_two]
    exact h
  push_cast
  linear_combination ((a : ZMod (N ^ 2)) * (b : ZMod (N ^ 2))) * hNN

/-- The scaled Lagrange coefficient computed by `share_combine` for the
share `s` of the list `L` (the fold over the other shares' ids). -/
def lamOf (pk : PublicKey) (L : List PartialDecryption)
    (s : PartialDecryption) : Int :=
  lamFold s.id pk.delta ((L.erase s).map PartialDecryption.id)

theorem termOf_eq_lamOf (pk : PublicKey) (L : List PartialDecryption)
    (s : PartialDecryption) :
    termOf pk L s = pow_mod s.val (lamOf pk L s * 2) pk.n2 := rfl

/-- The partial decryption of the ciphertext represented by the unit `u`
for the private key share `sh` (share_decrypt's output in unit form). -/
def decOf (pk : PublicKey) (N : ℕ) (u : (ZMod (N ^ 2))ˣ)
    (sh : PrivateKeyShare) : PartialDecryption :=
  { val := ((((u ^ (sh.si * pk.delta * 2) : (ZMod (N ^ 2))ˣ) :
      ZMod (N ^ 2))).val : ℤ), id := sh.i }

/-- `encrypt` in closed form (both `pow_mod`s take the nonnegative
branch). -/
theorem encrypt_eq (pk : PublicKey) (M r : Int) (hM : 0 ≤ M)
    (hn : 0 ≤ pk.n) :
    pk.encrypt M r = some
      (((pk.g ^ M.toNat % pk.n2) * (r ^ pk.n.toNat % pk.n2)).tmod pk.n2) := by
  unfold PublicKey.encrypt pow_mod
  rw [if_pos hM, if_pos hn]
  rfl

theorem encrypt_bounds (pk : PublicKey) (M r c : Int) (hM : 0 ≤ M)
    (hn : 0 ≤ pk.n) (hn2 : 0 < pk.n2) (henc : pk.encrypt M r = some c) :
    0 ≤ c ∧ c < pk.n2 := by
  rw [encrypt_eq pk M r hM hn] at henc
  injection henc with hc
  have h1 : 0 ≤ pk.g ^ M.toNat % pk.n2 := Int.emod_nonneg _ (by omega)
  have h2 : 0 ≤ r ^ pk.n.toNat % pk.n2 := Int.emod_nonneg _ (by omega)
  have h3 : 0 ≤ (pk.g ^ M.toNat % pk.n2) * (r ^ pk.n.toNat % pk.n2) :=
    mul_nonneg h1 h2
  rw [← hc, Int.tmod_eq_emod h3 (by omega)]
  exact ⟨Int.emod_nonneg _ (by omega), Int.emod_lt_of_pos _ hn2⟩

set_option maxHeartbeats 1000000 in
/-- Master correctness of the combination pipeline: for a key pair on
safe primes, shares at distinct indices below `l`, and a ciphertext `c`
represented by the unit `u` whose `4·delta²·d` power is `1 + jN` in
`ZMod N²`, `share_combine` of the partial decryptions returns
`j · combine_shares_constant mod n`. -/
theorem combine_master (p q pp qq : ℕ) (l w : Nat)
    (hp : Nat.Prime p) (hq : Nat.Prime q) (hne : p ≠ q)
    (hpf : p = 2 * pp + 1) (hqf : q = 2 * qq + 1)
    (pk : PublicKey) (sk : PrivateKey)
    (hkey : generate_key_pair (p : Int) (q : Int) l w = some (pk, sk))
    (indices : List Nat) (hlen : indices.length = w)
    (hnd : indices.Nodup) (hidx : ∀ i ∈ indices, i < l)
    (rand : List Int) (hrand : ∀ x ∈ rand, 0 ≤ x)
    (hrlen : rand.length + 1 ≤ w)
    (c : Int) (u : (ZMod ((p * q) ^ 2))ˣ)
    (hu : ((u : (ZMod ((p * q) ^ 2))ˣ) : ZMod ((p * q) ^ 2)) =
      ((c : ℤ) : ZMod ((p * q) ^ 2)))
    (j : ℕ)
    (hjpow : ((u ^ (4 * pk.delta ^ 2 * sk.d).toNat : (ZMod ((p * q) ^ 2))ˣ) :
        ZMod ((p * q) ^ 2)) =
      ((1 + j * (p * q) : ℕ) : ZMod ((p * q) ^ 2)))
    (shs : List PrivateKeyShare) (hshare : sk.share indices rand = some shs)
    (pds : List PartialDecryption)
    (hdec : optionMap (fun sh => sh.share_decrypt pk c) shs = some pds) :
    pk.share_combine pds =
      some (Except.ok (((j : ℤ) * pk.combine_shares_constant) % pk.n)) := by
  obtain ⟨d, csc, hc, hi, hpk, hsk⟩ := generate_key_pair_parts hkey
  have hp3 : 3 ≤ p := by have := hp.two_le; omega
  have hq3 : 3 ≤ q := by have := hq.two_le; omega
  have hpp1 : 1 ≤ pp := by omega
  have hqq1 : 1 ≤ qq := by omega
  have hN9 : 9 ≤ p * q := by nlinarith
  have hN1 : 1 < p * q := by omega
  have hN2 : 1 < (p * q) ^ 2 := by nlinarith
  have hnz : NeZero ((p * q) ^ 2) := ⟨by omega⟩
  -- key-pair field values
  have hpkn : pk.n = ((p * q : ℕ) : ℤ) := by rw [hpk]; push_cast; rfl
  have hpkn2 : pk.n2 = (((p * q) ^ 2 : ℕ) : ℤ) := by rw [hpk]; push_cast; rfl
  have hdelta : pk.delta = ((Nat.factorial l : ℕ) : ℤ) := by rw [hpk]
  have hcsc : pk.combine_shares_constant = csc := by rw [hpk]
  have hskd : sk.d = d := by rw [hsk]
  have hfp : Int.fdiv (p : ℤ) 2 = (pp : ℤ) := by
    rw [show (p : ℤ) = 2 * (pp : ℤ) + 1 by exact_mod_cast hpf]
    exact fdiv_two_of_odd _
  have hfq : Int.fdiv (q : ℤ) 2 = (qq : ℤ) := by
    rw [show (q : ℤ) = 2 * (qq : ℤ) + 1 by exact_mod_cast hqf]
    exact fdiv_two_of_odd _
  have hsknm : sk.nm = ((p : ℤ) * q) * ((pp : ℤ) * qq) := by
    rw [hsk]
    show (p : ℤ) * q * (Int.fdiv (p : ℤ) 2 * Int.fdiv (q : ℤ) 2) = _
    rw [hfp, hfq]
  have hnm0 : 0 < sk.nm := by
    rw [hsknm]
    have h1 : (0 : ℤ) < (p : ℤ) * q := by exact_mod_cast (by nlinarith : 0 < p * q)
    have h2 : (0 : ℤ) < (pp : ℤ) * qq := by
      exact_mod_cast (by nlinarith : 0 < pp * qq)
    positivity
  -- the private exponent from crt2
  have hgcd : Int.gcd ((p : ℤ) * q) (Int.fdiv (p : ℤ) 2 * Int.fdiv (q : ℤ) 2)
      = 1 := crt2_eq_some_gcd hc
  rw [hfp, hfq] at hc hgcd
  obtain ⟨x, hx, hx0, hxu, hx1, hx2⟩ :=
    @crt2_spec 1 ((p : ℤ) * q) 0 ((pp : ℤ) * qq)
      (by omega)
      (by exact_mod_cast (by nlinarith : 1 < p * q))
      le_rfl
      (by exact_mod_cast (by nlinarith : 0 < pp * qq)) hgcd
  rw [hc] at hx
  have hdx : d = x := by injection hx
  subst hdx
  have hd0 : 0 ≤ sk.d := by rw [hskd]; exact hx0
  have hddvd : ((pp : ℤ) * qq) ∣ sk.d := by
    rw [hskd]
    exact Int.dvd_of_emod_eq_zero hx2
  -- csc bounds
  obtain ⟨-, hcsc0, hcscu, hinv⟩ := invert_spec hi
  -- the shares produced by `share`
  have hshs : shs = indices.map (Polynomial.new sk rand).compute := by
    unfold PrivateKey.share at hshare
    rw [if_pos (by rw [hsk]; exact hlen)] at hshare
    injection hshare with h
    exact h.symm
  -- the partial decryptions in unit form
  have hsd : ∀ sh : PrivateKeyShare,
      sh.share_decrypt pk c = some (decOf pk (p * q) u sh) := by
    intro sh
    unfold PrivateKeyShare.share_decrypt
    rw [hpkn2, pow_mod_eq_val_unit hN2 u hu (sh.si * pk.delta * 2)]
    rfl
  have hpds : pds = shs.map (decOf pk (p * q) u) := by
    have h1 := optionMap_all_some (fun sh => sh.share_decrypt pk c)
      (decOf pk (p * q) u) shs (fun sh _ => hsd sh)
    rw [h1] at hdec
    injection hdec with h
    exact h.symm
  -- ids of the partial decryptions
  have hpdsid : pds.map PartialDecryption.id =
      indices.map (fun t : Nat => t + 1) := by
    rw [hpds, hshs, List.map_map, List.map_map]
    rfl
  have hndp : (pds.map PartialDecryption.id).Nodup := by
    rw [hpdsid]
    exact hnd.map (fun a b hab => by omega)
  have hmemp : ∀ s ∈ pds, 1 ≤ s.id ∧ s.id ≤ l := by
    intro s hs
    have hmm : s.id ∈ pds.map PartialDecryption.id := List.mem_map_of_mem _ hs
    rw [hpdsid] at hmm
    obtain ⟨t, ht, hte⟩ := List.mem_map.mp hmm
    have := hidx t ht
    omega
  -- the exact Lagrange-coefficient identity for every share
  have hlamid : ∀ s ∈ pds,
      lamOf pk pds s * ((pds.erase s).map
        (fun t : PartialDecryption =>
          ((s.id : ℕ) : Int) - ((t.id : ℕ) : Int))).prod =
      (Nat.factorial l : Int) * ((pds.erase s).map
        (fun t : PartialDecryption => -(((t.id : ℕ) : Int)))).prod := by
    intro s hs
    have hndo : ((pds.erase s).map PartialDecryption.id).Nodup :=
      ((List.erase_sublist s pds).map _).nodup hndp
    have hsido : s.id ∉ (pds.erase s).map PartialDecryption.id :=
      not_mem_erase_map_id hndp hs
    have hmemo : ∀ t ∈ (pds.erase s).map PartialDecryption.id,
        1 ≤ t ∧ t ≤ l := by
      intro t ht
      obtain ⟨y, hy, rfl⟩ := List.mem_map.mp ht
      exact hmemp y ((List.erase_sublist s pds).mem hy)
    have hsb : 1 ≤ s.id ∧ s.id ≤ l := hmemp s hs
    have he := lamFold_exact l s.id hsb.1 hsb.2
      ((pds.erase s).map PartialDecryption.id) [] ((Nat.factorial l : ℕ) : ℤ)
      (by simpa using hndo) (by simpa using hsido) (by simpa using hmemo)
      (by simp)
    simp only [List.nil_append] at he
    show lamFold s.id pk.delta ((pds.erase s).map PartialDecryption.id) * _ = _
    rw [hdelta]
    have e1 : ((pds.erase s).map PartialDecryption.id).map
        (fun t : Nat => (s.id : Int) - (t : Int)) =
        (pds.erase s).map (fun t : PartialDecryption =>
          ((s.id : ℕ) : Int) - ((t.id : ℕ) : Int)) := by
      rw [List.map_map]
      rfl
    have e2 : ((pds.erase s).map PartialDecryption.id).map
        (fun t : Nat => -(t : Int)) =
        (pds.erase s).map
          (fun t : PartialDecryption => -(((t.id : ℕ)) : Int)) := by
      rw [List.map_map]
      rfl
    rw [← e1, ← e2]
    exact he
  -- each combine term in unit form
  have hterm : ∀ sh ∈ shs, termOf pk pds (decOf pk (p * q) u sh) =
      some ((((u ^ ((sh.si * pk.delta * 2) *
          (lamOf pk pds (decOf pk (p * q) u sh) * 2)) :
        (ZMod ((p * q) ^ 2))ˣ) : ZMod ((p * q) ^ 2))).val : ℤ) := by
    intro sh _
    rw [termOf_eq_lamOf]
    have hbase : ((u ^ (sh.si * pk.delta * 2) : (ZMod ((p * q) ^ 2))ˣ) :
        ZMod ((p * q) ^ 2)) =
        (((decOf pk (p * q) u sh).val : ℤ) : ZMod ((p * q) ^ 2)) := by
      show _ = ((((((u ^ (sh.si * pk.delta * 2) : (ZMod ((p * q) ^ 2))ˣ) :
        ZMod ((p * q) ^ 2))).val : ℤ) : ℤ) : ZMod ((p * q) ^ 2))
      rw [intCast_val_eq (by omega)]
    rw [hpkn2, pow_mod_eq_val_unit hN2 (u ^ (sh.si * pk.delta * 2)) hbase
      (lamOf pk pds (decOf pk (p * q) u sh) * 2)]
    congr 2
    rw [← zpow_mul]
  have hterms : optionMap (termOf pk pds) pds =
      some (shs.map (fun sh => ((((u ^ ((sh.si * pk.delta * 2) *
          (lamOf pk pds (decOf pk (p * q) u sh) * 2)) :
        (ZMod ((p * q) ^ 2))ˣ) : ZMod ((p * q) ^ 2))).val : ℤ))) := by
    rw [hpds]
    exact optionMap_map_all_some _ _ _ shs (fun sh hs => by
      rw [← hpds]; exact hterm sh hs)
  -- the exponent sum is congruent to 4·delta²·d modulo the totient
  have hAcong : ((shs.map (fun sh =>
      sh.si * lamOf pk pds (decOf pk (p * q) u sh))).sum) ≡
      pk.delta * sk.d [ZMOD sk.nm] := by
    have hstep : ∀ sh ∈ shs,
        sh.si * lamOf pk pds (decOf pk (p * q) u sh) ≡
        lamOf pk pds (decOf pk (p * q) u sh) *
          evalZ (sk.d :: rand) ((sh.i : ℕ) : ℤ) [ZMOD sk.nm] := by
      intro sh hsh
      rw [hshs] at hsh
      obtain ⟨t, ht, rfl⟩ := List.mem_map.mp hsh
      obtain ⟨hi1, hsi0, hsic⟩ := compute_si_spec sk rand t hd0 hrand hnm0
      have hie : ((((Polynomial.new sk rand).compute t).i : ℕ) : ℤ) =
          ((t : ℕ) : ℤ) + 1 := by
        rw [hi1]
        push_cast
        ring
      rw [hie]
      calc ((Polynomial.new sk rand).compute t).si *
            lamOf pk pds (decOf pk (p * q) u ((Polynomial.new sk rand).compute t))
          ≡ evalZ (sk.d :: rand) (((t : ℕ) : ℤ) + 1) *
            lamOf pk pds (decOf pk (p * q) u ((Polynomial.new sk rand).compute t))
            [ZMOD sk.nm] := hsic.mul_right _
        _ = _ := by ring
    have h1 := list_sum_modeq _ _ sk.nm shs hstep
    refine h1.trans ?_
    -- the Lagrange sum identity
    have h2 : (shs.map (fun sh =>
        lamOf pk pds (decOf pk (p * q) u sh) *
          evalZ (sk.d :: rand) ((sh.i : ℕ) : ℤ))).sum =
        (pds.map (fun s : PartialDecryption =>
          lamOf pk pds s * evalZ (sk.d :: rand) (((s.id : ℕ) : ℤ)))).sum := by
      rw [hpds, List.map_map]
      rfl
    have h3 := lagrange_sum l pds (sk.d :: rand) (lamOf pk pds) hndp
      (by
        have e1 : pds.length = indices.length := by
          rw [hpds, hshs, List.length_map, List.length_map]
        simp only [List.length_cons]
        omega)
      hlamid
    rw [h2, h3, evalZ_cons_zero, ← hdelta]
  have hEcong : ((shs.map (fun sh => (sh.si * pk.delta * 2) *
      (lamOf pk pds (decOf pk (p * q) u sh) * 2))).sum) ≡
      4 * pk.delta ^ 2 * sk.d
      [ZMOD ((Nat.totient ((p * q) ^ 2) : ℕ) : ℤ)] := by
    have e1 : shs.map (fun sh => (sh.si * pk.delta * 2) *
        (lamOf pk pds (decOf pk (p * q) u sh) * 2)) =
        shs.map (fun sh => 4 * pk.delta *
          (sh.si * lamOf pk pds (decOf pk (p * q) u sh))) :=
      List.map_congr_left (fun sh _ => by ring)
    rw [e1, List.sum_map_mul_left]
    have htot : ((Nat.totient ((p * q) ^ 2) : ℕ) : ℤ) = 4 * sk.nm := by
      rw [totient_sq_safe p q pp qq hp hq hne hpf hqf, hsknm]
      push_cast
      ring
    obtain ⟨k, hk⟩ := hAcong.dvd
    rw [htot]
    have hdvd : (4 * sk.nm) ∣ (4 * pk.delta ^ 2 * sk.d - 4 * pk.delta *
        (shs.map (fun sh =>
          sh.si * lamOf pk pds (decOf pk (p * q) u sh))).sum) :=
      ⟨pk.delta * k, by linear_combination (4 * pk.delta) * hk⟩
    exact Int.modEq_iff_dvd.mpr hdvd
  -- fold the terms into the canonical power value
  have hfold : (shs.map (fun sh => ((((u ^ ((sh.si * pk.delta * 2) *
          (lamOf pk pds (decOf pk (p * q) u sh) * 2)) :
        (ZMod ((p * q) ^ 2))ˣ) : ZMod ((p * q) ^ 2))).val : ℤ))).foldl
        (fun a b => (a * b).tmod pk.n2) 1 =
      ((1 + j % (p * q) * (p * q) : ℕ) : ℤ) := by
    have hbnd : ∀ y ∈ shs.map (fun sh => ((((u ^ ((sh.si * pk.delta * 2) *
          (lamOf pk pds (decOf pk (p * q) u sh) * 2)) :
        (ZMod ((p * q) ^ 2))ˣ) : ZMod ((p * q) ^ 2))).val : ℤ)),
        0 ≤ y ∧ y < pk.n2 := by
      intro y hy
      obtain ⟨sh, _, rfl⟩ := List.mem_map.mp hy
      refine ⟨Int.natCast_nonneg _, ?_⟩
      rw [hpkn2]
      exact_mod_cast ZMod.val_lt _
    rw [foldl_mod_mul pk.n2 (by rw [hpkn2]; exact_mod_cast hN2) _ 1
      (by omega) (by rw [hpkn2]; exact_mod_cast hN2) hbnd, one_mul]
    have e3 : shs.map (fun sh => ((((u ^ ((sh.si * pk.delta * 2) *
          (lamOf pk pds (decOf pk (p * q) u sh) * 2)) :
        (ZMod ((p * q) ^ 2))ˣ) : ZMod ((p * q) ^ 2))).val : ℤ)) =
        (shs.map (fun sh => (u ^ ((sh.si * pk.delta * 2) *
          (lamOf pk pds (decOf pk (p * q) u sh) * 2)) :
          (ZMod ((p * q) ^ 2))ˣ))).map
          (fun z : (ZMod ((p * q) ^ 2))ˣ => (((z : ZMod ((p * q) ^ 2))).val : ℤ)) := by
      rw [List.map_map]
      rfl
    rw [e3, hpkn2, list_val_prod_emod ((p * q) ^ 2) hN2, list_prod_zpow]
    have hz1 : (u ^ ((shs.map (fun sh => (sh.si * pk.delta * 2) *
        (lamOf pk pds (decOf pk (p * q) u sh) * 2))).sum) :
        (ZMod ((p * q) ^ 2))ˣ) =
        u ^ (4 * pk.delta ^ 2 * sk.d) :=
      zpow_eq_of_modeq u (Nat.totient ((p * q) ^ 2))
        (ZMod.pow_totient u) hEcong
    have hdd0 : 0 ≤ 4 * pk.delta ^ 2 * sk.d := by
      have : 0 ≤ pk.delta ^ 2 := sq_nonneg _
      nlinarith
    have hz2 : (u ^ (4 * pk.delta ^ 2 * sk.d) : (ZMod ((p * q) ^ 2))ˣ) =
        u ^ ((4 * pk.delta ^ 2 * sk.d).toNat) := by
      conv_lhs => rw [← Int.toNat_of_nonneg hdd0]
      rw [zpow_natCast]
    rw [hz1, hz2, hjpow, ZMod.val_natCast, one_add_mul_mod_sq _ _ hN1]
  -- assemble
  rw [share_combine_eq_optionMap pk pds hndp, hterms, Option.some_bind, hfold]
  congr 2
  have hγ : ((1 + j % (p * q) * (p * q) : ℕ) : ℤ) - 1 =
      ((j % (p * q) : ℕ) : ℤ) * (((p * q) : ℕ) : ℤ) := by
    push_cast
    ring
  rw [hγ, hpkn, Int.mul_tdiv_cancel _ (by exact_mod_cast (by omega : p * q ≠ 0))]
  rw [Int.tmod_eq_emod (mul_nonneg (Int.natCast_nonneg _) (by rw [hcsc]; exact hcsc0))
    (by exact_mod_cast (by omega : (0:ℕ) < p * q).le)]
  have hjm : ((j % (p * q) : ℕ) : ℤ) = (j : ℤ) % (((p * q) : ℕ) : ℤ) := by
    push_cast
    rfl
  rw [hjm, Int.mul_emod, Int.emod_emod_of_dvd _ dvd_rfl, ← Int.mul_emod]

set_option maxHeartbeats 1000000 in
/-- The unit represented by an `encrypt` output, with its power law:
for any exponent `et` whose `n`-fold multiple is divisible by the
totient of `n²`, the `et`-th power is `1 + M·et·n` in `ZMod n²`. -/
theorem encrypt_unit (p q : ℕ) (hN1 : 1 < p * q) (pk : PublicKey)
    (hpkn : pk.n = ((p * q : ℕ) : ℤ)) (hpkg : pk.g = pk.n + 1)
    (hpkn2 : pk.n2 = (((p * q) ^ 2 : ℕ) : ℤ))
    (M r c : Int) (hM : 0 ≤ M) (hr : Int.gcd r pk.n = 1)
    (henc : pk.encrypt M r = some c) :
    ∃ v : (ZMod ((p * q) ^ 2))ˣ,
      ((v : (ZMod ((p * q) ^ 2))ˣ) : ZMod ((p * q) ^ 2)) =
        ((c : ℤ) : ZMod ((p * q) ^ 2)) ∧
      ∀ et : ℕ, (Nat.totient ((p * q) ^ 2)) ∣ (p * q) * et →
        ((v ^ et : (ZMod ((p * q) ^ 2))ˣ) : ZMod ((p * q) ^ 2)) =
          ((1 + (M.toNat * et) * (p * q) : ℕ) : ZMod ((p * q) ^ 2)) := by
  have hN2 : 1 < (p * q) ^ 2 := by nlinarith
  have hnz : NeZero ((p * q) ^ 2) := ⟨by omega⟩
  have hn0 : (0 : ℤ) ≤ pk.n := by rw [hpkn]; positivity
  have hn2pos : (0 : ℤ) < pk.n2 := by
    rw [hpkn2]
    exact_mod_cast (by positivity : 0 < (p * q) ^ 2)
  have hsq : (((p * q) ^ 2 : ℕ) : ℤ) = ((p * q : ℕ) : ℤ) ^ 2 := by
    push_cast
    ring
  have hgco : Int.gcd pk.g pk.n2 = 1 := by
    rw [hpkg, hpkn2, hpkn, hsq]
    have h1 : IsCoprime (((p * q : ℕ) : ℤ) + 1) ((p * q : ℕ) : ℤ) :=
      ⟨1, -1, by ring⟩
    exact Int.isCoprime_iff_gcd_eq_one.mp (IsCoprime.pow_right h1)
  have hrco : Int.gcd r pk.n2 = 1 := by
    rw [hpkn2, hsq]
    have h1 : IsCoprime r ((p * q : ℕ) : ℤ) := by
      rw [← hpkn]
      exact Int.isCoprime_iff_gcd_eq_one.mpr hr
    exact Int.isCoprime_iff_gcd_eq_one.mp (IsCoprime.pow_right h1)
  have hgU : IsUnit ((pk.g : ℤ) : ZMod ((p * q) ^ 2)) :=
    isUnit_intCast_of_gcd (by omega) (by rw [← hpkn2]; exact hgco)
  have hrU : IsUnit ((r : ℤ) : ZMod ((p * q) ^ 2)) :=
    isUnit_intCast_of_gcd (by omega) (by rw [← hpkn2]; exact hrco)
  refine ⟨hgU.unit ^ M.toNat * hrU.unit ^ (p * q), ?_, ?_⟩
  · rw [encrypt_eq pk M r hM hn0] at henc
    injection henc with hcv
    have hnt : pk.n.toNat = p * q := by rw [hpkn]; exact Int.toNat_natCast _
    have hX0 : 0 ≤ (pk.g ^ M.toNat % pk.n2) * (r ^ pk.n.toNat % pk.n2) :=
      mul_nonneg (Int.emod_nonneg _ (by omega)) (Int.emod_nonneg _ (by omega))
    have hcong : c ≡ pk.g ^ M.toNat * r ^ (p * q) [ZMOD pk.n2] := by
      rw [hnt] at hX0
      rw [← hcv, hnt, Int.tmod_eq_emod hX0 (by omega)]
      calc ((pk.g ^ M.toNat % pk.n2) * (r ^ (p * q) % pk.n2)) % pk.n2
          ≡ (pk.g ^ M.toNat % pk.n2) * (r ^ (p * q) % pk.n2) [ZMOD pk.n2] :=
            Int.emod_emod_of_dvd _ dvd_rfl
        _ ≡ pk.g ^ M.toNat * r ^ (p * q) [ZMOD pk.n2] :=
            Int.ModEq.mul
              (show pk.g ^ M.toNat % pk.n2 ≡ pk.g ^ M.toNat [ZMOD pk.n2] from
                Int.emod_emod_of_dvd _ dvd_rfl)
              (show r ^ (p * q) % pk.n2 ≡ r ^ (p * q) [ZMOD pk.n2] from
                Int.emod_emod_of_dvd _ dvd_rfl)
    have hcast : ((c : ℤ) : ZMod ((p * q) ^ 2)) =
        ((pk.g ^ M.toNat * r ^ (p * q) : ℤ) : ZMod ((p * q) ^ 2)) := by
      rw [ZMod.intCast_eq_intCast_iff]
      rw [hpkn2] at hcong
      exact hcong
    rw [hcast]
    push_cast
    rw [IsUnit.unit_spec, IsUnit.unit_spec]
  · intro et hdvd
    obtain ⟨k, hk⟩ := hdvd
    have hvpow : (hgU.unit ^ M.toNat * hrU.unit ^ (p * q)) ^ et =
        hgU.unit ^ (M.toNat * et) * hrU.unit ^ ((p * q) * et) :=
      (mul_pow (hgU.unit ^ M.toNat) (hrU.unit ^ (p * q)) et).trans
        (by rw [← pow_mul, ← pow_mul])
    rw [hvpow]
    have hr1 : hrU.unit ^ ((p * q) * et) = 1 := by
      rw [hk, pow_mul, ZMod.pow_totient, one_pow]
    rw [hr1, mul_one]
    rw [Units.val_pow_eq_pow_val, IsUnit.unit_spec]
    have hgc : ((pk.g : ℤ) : ZMod ((p * q) ^ 2)) =
        1 + ((p * q : ℕ) : ZMod ((p * q) ^ 2)) := by
      rw [hpkg, hpkn]
      push_cast
      ring
    rw [hgc, one_add_cast_pow]
    push_cast
    ring

set_option maxHeartbeats 1000000 in
/-- C1.  Threshold decryption: for a key pair generated from distinct safe
primes, any `w` shares produced by `share` at distinct indices below `l`,
any plaintext `0 ≤ M < n`, and any encryption randomness `r` coprime to
`n`, feeding the partial decryptions of `encrypt M r` to `share_combine`
returns `Ok M` (the plaintext mod `n`). -/
theorem threshold_decryption (p q pp qq : ℕ) (l w : Nat)
    (hp : Nat.Prime p) (hq : Nat.Prime q) (hne : p ≠ q)
    (hpf : p = 2 * pp + 1) (hqf : q = 2 * qq + 1)
    (pk : PublicKey) (sk : PrivateKey)
    (hkey : generate_key_pair (p : Int) (q : Int) l w = some (pk, sk))
    (indices : List Nat) (hlen : indices.length = w)
    (hnd : indices.Nodup) (hidx : ∀ i ∈ indices, i < l)
    (rand : List Int) (hrand : ∀ x ∈ rand, 0 ≤ x)
    (hrlen : rand.length + 1 ≤ w)
    (M r : Int) (hM0 : 0 ≤ M) (hMn : M < pk.n) (hr : Int.gcd r pk.n = 1)
    (c : Int) (henc : pk.encrypt M r = some c)
    (shs : List PrivateKeyShare) (hshare : sk.share indices rand = some shs)
    (pds : List PartialDecryption)
    (hdec : optionMap (fun sh => sh.share_decrypt pk c) shs = some pds) :
    pk.share_combine pds = some (Except.ok M) := by
  obtain ⟨d, csc, hc, hi, hpk, hsk⟩ := generate_key_pair_parts hkey
  have hp3 : 3 ≤ p := by have := hp.two_le; omega
  have hq3 : 3 ≤ q := by have := hq.two_le; omega
  have hpp1 : 1 ≤ pp := by omega
  have hqq1 : 1 ≤ qq := by omega
  have hN9 : 9 ≤ p * q := by nlinarith
  have hN1 : 1 < p * q := by omega
  have hpknZ : pk.n = (p : ℤ) * q := by rw [hpk]
  have hpkn : pk.n = ((p * q : ℕ) : ℤ) := by rw [hpknZ]; push_cast; rfl
  have hpkg : pk.g = pk.n + 1 := by rw [hpk]
  have hpkn2 : pk.n2 = (((p * q) ^ 2 : ℕ) : ℤ) := by rw [hpk]; push_cast; rfl
  have hdelta : pk.delta = ((Nat.factorial l : ℕ) : ℤ) := by rw [hpk]
  have hcsc : pk.combine_shares_constant = csc := by rw [hpk]
  have hskd : sk.d = d := by rw [hsk]
  have hfp : Int.fdiv (p : ℤ) 2 = (pp : ℤ) := by
    rw [show (p : ℤ) = 2 * (pp : ℤ) + 1 by exact_mod_cast hpf]
    exact fdiv_two_of_odd _
  have hfq : Int.fdiv (q : ℤ) 2 = (qq : ℤ) := by
    rw [show (q : ℤ) = 2 * (qq : ℤ) + 1 by exact_mod_cast hqf]
    exact fdiv_two_of_odd _
  have hgcd : Int.gcd ((p : ℤ) * q) (Int.fdiv (p : ℤ) 2 * Int.fdiv (q : ℤ) 2)
      = 1 := crt2_eq_some_gcd hc
  rw [hfp, hfq] at hc hgcd
  obtain ⟨x, hx, hx0, hxu, hx1, hx2⟩ :=
    @crt2_spec 1 ((p : ℤ) * q) 0 ((pp : ℤ) * qq)
      (by omega)
      (by exact_mod_cast (by nlinarith : 1 < p * q))
      le_rfl
      (by exact_mod_cast (by nlinarith : 0 < pp * qq)) hgcd
  rw [hc] at hx
  have hdx : d = x := by injection hx
  subst hdx
  have hd0 : 0 ≤ sk.d := by rw [hskd]; exact hx0
  have hddvd : ((pp : ℤ) * qq) ∣ sk.d := by
    rw [hskd]
    exact Int.dvd_of_emod_eq_zero hx2
  obtain ⟨-, hcsc0, hcscu, hinv⟩ := invert_spec hi
  have hdd0 : 0 ≤ 4 * pk.delta ^ 2 * sk.d :=
    mul_nonneg (by positivity) hd0
  -- the encryption unit and its power law
  obtain ⟨v, hv, hvp⟩ := encrypt_unit p q hN1 pk hpkn hpkg hpkn2 M r c hM0 hr
    henc
  -- the divisibility making the randomness part vanish
  have htotdvd : (Nat.totient ((p * q) ^ 2)) ∣
      (p * q) * (4 * pk.delta ^ 2 * sk.d).toNat := by
    rw [← Int.natCast_dvd_natCast]
    obtain ⟨e, he⟩ := hddvd
    rw [totient_sq_safe p q pp qq hp hq hne hpf hqf]
    push_cast
    rw [Int.toNat_of_nonneg hdd0, he]
    exact ⟨pk.delta ^ 2 * e, by ring⟩
  have hjpow := hvp (4 * pk.delta ^ 2 * sk.d).toNat htotdvd
  -- the master combination result
  have hmain := combine_master p q pp qq l w hp hq hne hpf hqf pk sk hkey
    indices hlen hnd hidx rand hrand hrlen c v hv
    (M.toNat * (4 * pk.delta ^ 2 * sk.d).toNat) hjpow shs hshare pds hdec
  rw [hmain]
  -- final modular arithmetic: the result is the plaintext
  congr 2
  have hje : ((M.toNat * (4 * pk.delta ^ 2 * sk.d).toNat : ℕ) : ℤ) =
      M * (4 * pk.delta ^ 2 * sk.d) := by
    push_cast
    rw [Int.toNat_of_nonneg hM0, Int.toNat_of_nonneg hdd0]
  rw [hje, hcsc, hpknZ]
  have hgt1 : (1 : ℤ) < (p : ℤ) * q := by
    exact_mod_cast (by nlinarith : 1 < p * q)
  have hA1 : 4 * pk.delta ^ 2 * csc ≡ 1 [ZMOD ((p : ℤ) * q)] := by
    show 4 * pk.delta ^ 2 * csc % ((p : ℤ) * q) = 1 % ((p : ℤ) * q)
    rw [hdelta]
    exact_mod_cast hinv
  have hd1 : sk.d ≡ 1 [ZMOD ((p : ℤ) * q)] := by
    show sk.d % ((p : ℤ) * q) = 1 % ((p : ℤ) * q)
    rw [hskd, hx1]
    exact (Int.emod_eq_of_lt (by omega) hgt1).symm
  have hchain : M * (4 * pk.delta ^ 2 * sk.d) * csc ≡ M * 1 * 1
      [ZMOD ((p : ℤ) * q)] := by
    have e : M * (4 * pk.delta ^ 2 * sk.d) * csc =
        (M * sk.d) * (4 * pk.delta ^ 2 * csc) := by ring
    have e2 : M * 1 * 1 = (M * 1) * 1 := by ring
    rw [e, e2]
    exact Int.ModEq.mul (Int.ModEq.mul_left M hd1) hA1
  have hmod : M * (4 * pk.delta ^ 2 * sk.d) * csc % ((p : ℤ) * q) =
      (M * 1 * 1) % ((p : ℤ) * q) := hchain
  rw [hmod, mul_one, mul_one, Int.emod_eq_of_lt hM0 (by rw [← hpknZ]; exact hMn)]

set_option maxHeartbeats 1000000 in
/-- C2.  Homomorphic addition: `add_encrypted` multiplies the ciphertexts
modulo `n²`, and threshold-decrypting its output (partial decryptions of
`add_encrypted (encrypt M₁ r₁) (encrypt M₂ r₂)` fed to `share_combine`)
yields `(M₁ + M₂) mod n`. -/
theorem homomorphic_addition (p q pp qq : ℕ) (l w : Nat)
    (hp : Nat.Prime p) (hq : Nat.Prime q) (hne : p ≠ q)
    (hpf : p = 2 * pp + 1) (hqf : q = 2 * qq + 1)
    (pk : PublicKey) (sk : PrivateKey)
    (hkey : generate_key_pair (p : Int) (q : Int) l w = some (pk, sk))
    (indices : List Nat) (hlen : indices.length = w)
    (hnd : indices.Nodup) (hidx : ∀ i ∈ indices, i < l)
    (rand : List Int) (hrand : ∀ x ∈ rand, 0 ≤ x)
    (hrlen : rand.length + 1 ≤ w)
    (M1 r1 M2 r2 : Int) (hM10 : 0 ≤ M1) (hM20 : 0 ≤ M2)
    (hr1 : Int.gcd r1 pk.n = 1) (hr2 : Int.gcd r2 pk.n = 1)
    (c1 c2 : Int) (henc1 : pk.encrypt M1 r1 = some c1)
    (henc2 : pk.encrypt M2 r2 = some c2)
    (shs : List PrivateKeyShare) (hshare : sk.share indices rand = some shs)
    (pds : List PartialDecryption)
    (hdec : optionMap (fun sh =>
      sh.share_decrypt pk (pk.add_encrypted c1 c2)) shs = some pds) :
    pk.share_combine pds = some (Except.ok ((M1 + M2) % pk.n)) ∧
    pk.add_encrypted c1 c2 = (c1 * c2) % pk.n2 := by
  obtain ⟨d, csc, hc, hi, hpk, hsk⟩ := generate_key_pair_parts hkey
  have hp3 : 3 ≤ p := by have := hp.two_le; omega
  have hq3 : 3 ≤ q := by have := hq.two_le; omega
  have hpp1 : 1 ≤ pp := by omega
  have hqq1 : 1 ≤ qq := by omega
  have hN9 : 9 ≤ p * q := le_trans (by norm_num) (Nat.mul_le_mul hp3 hq3)
  have hN1 : 1 < p * q := by omega
  have hpknZ : pk.n = (p : ℤ) * q := by rw [hpk]
  have hpkn : pk.n = ((p * q : ℕ) : ℤ) := by rw [hpknZ]; push_cast; rfl
  have hpkg : pk.g = pk.n + 1 := by rw [hpk]
  have hpkn2 : pk.n2 = (((p * q) ^ 2 : ℕ) : ℤ) := by rw [hpk]; push_cast; rfl
  have hdelta : pk.delta = ((Nat.factorial l : ℕ) : ℤ) := by rw [hpk]
  have hcsc : pk.combine_shares_constant = csc := by rw [hpk]
  have hskd : sk.d = d := by rw [hsk]
  have hn0 : (0 : ℤ) ≤ pk.n := by rw [hpknZ]; positivity
  have hn2pos : (0 : ℤ) < pk.n2 := by
    rw [hpkn2]
    exact_mod_cast (by positivity : 0 < (p * q) ^ 2)
  have hfp : Int.fdiv (p : ℤ) 2 = (pp : ℤ) := by
    rw [show (p : ℤ) = 2 * (pp : ℤ) + 1 by exact_mod_cast hpf]
    exact fdiv_two_of_odd _
  have hfq : Int.fdiv (q : ℤ) 2 = (qq : ℤ) := by
    rw [show (q : ℤ) = 2 * (qq : ℤ) + 1 by exact_mod_cast hqf]
    exact fdiv_two_of_odd _
  have hgcd : Int.gcd ((p : ℤ) * q) (Int.fdiv (p : ℤ) 2 * Int.fdiv (q : ℤ) 2)
      = 1 := crt2_eq_some_gcd hc
  rw [hfp, hfq] at hc hgcd
  obtain ⟨x, hx, hx0, hxu, hx1, hx2⟩ :=
    @crt2_spec 1 ((p : ℤ) * q) 0 ((pp : ℤ) * qq)
      (by omega)
      (by exact_mod_cast hN1)
      le_rfl
      (by exact_mod_cast Nat.mul_pos (by omega : 0 < pp) (by omega : 0 < qq)) hgcd
  rw [hc] at hx
  have hdx : d = x := by injection hx
  subst hdx
  have hd0 : 0 ≤ sk.d := by rw [hskd]; exact hx0
  have hddvd : ((pp : ℤ) * qq) ∣ sk.d := by
    rw [hskd]
    exact Int.dvd_of_emod_eq_zero hx2
  obtain ⟨-, hcsc0, hcscu, hinv⟩ := invert_spec hi
  have hdd0 : 0 ≤ 4 * pk.delta ^ 2 * sk.d :=
    mul_nonneg (by positivity) hd0
  -- ciphertext bounds and the mod-n² description of add_encrypted
  obtain ⟨hc10, hc1u⟩ := encrypt_bounds pk M1 r1 c1 hM10 hn0 hn2pos henc1
  obtain ⟨hc20, hc2u⟩ := encrypt_bounds pk M2 r2 c2 hM20 hn0 hn2pos henc2
  have hadd : pk.add_encrypted c1 c2 = (c1 * c2) % pk.n2 := by
    show (c1 * c2).tmod pk.n2 = _
    exact Int.tmod_eq_emod (mul_nonneg hc10 hc20) (by omega)
  refine ⟨?_, hadd⟩
  -- the two encryption units
  obtain ⟨v1, hv1, hvp1⟩ := encrypt_unit p q hN1 pk hpkn hpkg hpkn2 M1 r1 c1
    hM10 hr1 henc1
  obtain ⟨v2, hv2, hvp2⟩ := encrypt_unit p q hN1 pk hpkn hpkg hpkn2 M2 r2 c2
    hM20 hr2 henc2
  -- the product unit represents the added ciphertext
  have hu : ((v1 * v2 : (ZMod ((p * q) ^ 2))ˣ) : ZMod ((p * q) ^ 2)) =
      ((pk.add_encrypted c1 c2 : ℤ) : ZMod ((p * q) ^ 2)) := by
    have hcast : ((pk.add_encrypted c1 c2 : ℤ) : ZMod ((p * q) ^ 2)) =
        ((c1 * c2 : ℤ) : ZMod ((p * q) ^ 2)) := by
      rw [ZMod.intCast_eq_intCast_iff, hadd, hpkn2]
      exact (show (c1 * c2) % ((((p * q) ^ 2 : ℕ)) : ℤ) ≡ c1 * c2
        [ZMOD ((((p * q) ^ 2 : ℕ)) : ℤ)] from
        Int.emod_emod_of_dvd _ dvd_rfl)
    rw [hcast]
    push_cast
    rw [hv1, hv2]
  -- the divisibility making the randomness parts vanish
  have htotdvd : (Nat.totient ((p * q) ^ 2)) ∣
      (p * q) * (4 * pk.delta ^ 2 * sk.d).toNat := by
    rw [← Int.natCast_dvd_natCast]
    obtain ⟨e, he⟩ := hddvd
    rw [totient_sq_safe p q pp qq hp hq hne hpf hqf]
    push_cast
    rw [Int.toNat_of_nonneg hdd0, he]
    exact ⟨pk.delta ^ 2 * e, by ring⟩
  -- the power law of the product unit
  have hjpow : (((v1 * v2) ^ (4 * pk.delta ^ 2 * sk.d).toNat :
      (ZMod ((p * q) ^ 2))ˣ) : ZMod ((p * q) ^ 2)) =
      ((1 + (M1.toNat * (4 * pk.delta ^ 2 * sk.d).toNat +
        M2.toNat * (4 * pk.delta ^ 2 * sk.d).toNat) * (p * q) : ℕ) :
        ZMod ((p * q) ^ 2)) := by
    have h1 : ((v1 * v2) ^ (4 * pk.delta ^ 2 * sk.d).toNat :
        (ZMod ((p * q) ^ 2))ˣ) =
        v1 ^ (4 * pk.delta ^ 2 * sk.d).toNat *
          v2 ^ (4 * pk.delta ^ 2 * sk.d).toNat :=
      mul_pow v1 v2 _
    rw [h1, Units.val_mul, hvp1 _ htotdvd, hvp2 _ htotdvd,
      one_add_mul_cast_mul]
  -- the master combination result
  have hmain := combine_master p q pp qq l w hp hq hne hpf hqf pk sk hkey
    indices hlen hnd hidx rand hrand hrlen (pk.add_encrypted c1 c2) (v1 * v2)
    hu
    (M1.toNat * (4 * pk.delta ^ 2 * sk.d).toNat +
      M2.toNat * (4 * pk.delta ^ 2 * sk.d).toNat)
    hjpow shs hshare pds hdec
  rw [hmain]
  congr 2
  have hje : ((M1.toNat * (4 * pk.delta ^ 2 * sk.d).toNat +
      M2.toNat * (4 * pk.delta ^ 2 * sk.d).toNat : ℕ) : ℤ) =
      (M1 + M2) * (4 * pk.delta ^ 2 * sk.d) := by
    push_cast
    rw [Int.toNat_of_nonneg hM10, Int.toNat_of_nonneg hM20,
      Int.toNat_of_nonneg hdd0]
    ring
  rw [hje, hcsc, hpknZ]
  have hgt1 : (1 : ℤ) < (p : ℤ) * q := by
    exact_mod_cast hN1
  have hA1 : 4 * pk.delta ^ 2 * csc ≡ 1 [ZMOD ((p : ℤ) * q)] := by
    show 4 * pk.delta ^ 2 * csc % ((p : ℤ) * q) = 1 % ((p : ℤ) * q)
    rw [hdelta]
    exact_mod_cast hinv
  have hd1 : sk.d ≡ 1 [ZMOD ((p : ℤ) * q)] := by
    show sk.d % ((p : ℤ) * q) = 1 % ((p : ℤ) * q)
    rw [hskd, hx1]
    exact (Int.emod_eq_of_lt (by omega) hgt1).symm
  have hchain : (M1 + M2) * (4 * pk.delta ^ 2 * sk.d) * csc ≡
      (M1 + M2) * 1 * 1 [ZMOD ((p : ℤ) * q)] := by
    have e : (M1 + M2) * (4 * pk.delta ^ 2 * sk.d) * csc =
        ((M1 + M2) * sk.d) * (4 * pk.delta ^ 2 * csc) := by ring
    have e2 : (M1 + M2) * 1 * 1 = ((M1 + M2) * 1) * 1 := by ring
    rw [e, e2]
    exact Int.ModEq.mul (Int.ModEq.mul_left (M1 + M2) hd1) hA1
  have hmod : (M1 + M2) * (4 * pk.delta ^ 2 * sk.d) * csc % ((p : ℤ) * q) =
      ((M1 + M2) * 1 * 1) % ((p : ℤ) * q) := hchain
  rw [hmod, mul_one, mul_one]

set_option maxRecDepth 4000 in
theorem share_combine_perm_counterexample :
    generate_key_pair 5 7 1 1 = some (pkOne, skOne) ∧
    (([⟨2, 2⟩, ⟨2, 3⟩, ⟨2, 5⟩] : List PartialDecryption).map
      PartialDecryption.id).Nodup ∧
    ([⟨2, 2⟩, ⟨2, 3⟩, ⟨2, 5⟩] : List PartialDecryption).Perm
      [⟨2, 2⟩, ⟨2, 5⟩, ⟨2, 3⟩] ∧
    pkOne.share_combine [⟨2, 2⟩, ⟨2, 5⟩, ⟨2, 3⟩] ≠
      pkOne.share_combine [⟨2, 2⟩, ⟨2, 3⟩, ⟨2, 5⟩] :=
  ⟨by decide, by decide, by decide, by decide⟩

set_option maxRecDepth 4000 in
theorem share_combine_perm_witness :
    ((5 : Int) = 2 * 2 + 1 ∧ (7 : Int) = 2 * 3 + 1 ∧ (1 : Int) ≤ 2 ∧
      (1 : Int) ≤ 3 ∧ generate_key_pair 5 7 3 3 = some (pkThree, skThree) ∧
      ([⟨2, 1⟩, ⟨3, 2⟩, ⟨4, 3⟩] : List PartialDecryption).Perm
        [⟨4, 3⟩, ⟨2, 1⟩, ⟨3, 2⟩] ∧
      (([⟨2, 1⟩, ⟨3, 2⟩, ⟨4, 3⟩] : List PartialDecryption).map
        PartialDecryption.id).Nodup ∧
      (∀ s ∈ ([⟨2, 1⟩, ⟨3, 2⟩, ⟨4, 3⟩] : List PartialDecryption),
        1 ≤ s.id ∧ s.id ≤ 3)) ∧
    pkThree.share_combine [⟨4, 3⟩, ⟨2, 1⟩, ⟨3, 2⟩] =
      pkThree.share_combine [⟨2, 1⟩, ⟨3, 2⟩, ⟨4, 3⟩] :=
  ⟨⟨by decide, by decide, by decide, by decide, by decide, by decide,
      by decide, by decide⟩,
    share_combine_perm 5 7 2 3 3 3 pkThree skThree (by decide) (by decide)
      (by decide) (by decide) (by decide) _ _ (by decide) (by decide)
      (by decide)⟩


set_option maxRecDepth 4000 in
theorem threshold_decryption_witness :
    pkOne.share_combine [⟨351, 1⟩] = some (Except.ok 5) :=
  threshold_decryption 5 7 2 3 1 1 (by norm_num) (by norm_num) (by decide)
    (by decide) (by decide) pkOne skOne (by decide) [0] (by decide)
    (by decide) (by decide) [] (by decide) (by decide) 5 2 (by decide)
    (by decide) (by decide) 718 (by decide) [⟨1, 36⟩] (by decide)
    [⟨351, 1⟩] (by decide)

set_option maxRecDepth 4000 in
theorem homomorphic_addition_witness :
    pkOne.share_combine [⟨456, 1⟩] =
      some (Except.ok ((11 + 13) % pkOne.n)) ∧
    pkOne.add_encrypted 823 1167 = (823 * 1167) % pkOne.n2 :=
  homomorphic_addition 5 7 2 3 1 1 (by norm_num) (by norm_num) (by decide)
    (by decide) (by decide) pkOne skOne (by decide) [0] (by decide)
    (by decide) (by decide) [] (by decide) (by decide) 11 2 13 3 (by decide)
    (by decide) (by decide) (by decide) 823 1167 (by decide) (by decide)
    [⟨1, 36⟩] (by decide) [⟨456, 1⟩] (by decide)

end PHT
